import Mathlib

/-! The buffer representation `string::impl` of boost/json/impl/string.hpp

A shallow embedding of `string::impl` (growth policy, construct, assign, append,
insert, unalloc) and of the parts of the `string` front end that fill the regions
those primitives return.

Conventions of the embedding

* `size_type` is an unsigned machine integer of `bits` bits: values are naturals,
  `+` and `-` on them are taken modulo `2 ^ bits` (`Config.add`, `Config.sub`).
* The constants `max_size_`, `mask_` and `sizeof(buf)` are declared in a header that
  is not part of the sources at hand; they are the fields of `Config`.
* A `char` is a natural number; the terminator is `0`.  No operation here computes
  with a `char`.
* The anonymous union `{ char* p; char buf[N]; }` is a pair of fields.  A pointer into
  the string is a `Ptr`: which of the two members it points into, and an offset.
* A heap block is carried by value next to its address (`Block`); the memory resource
  behind `storage_ptr` is the explicit state `storage`.
* Arrays are lists.  A store outside an array is dropped and a load stops at the end of
  the array; in the program both are undefined behaviour.  The theorems about contents
  pin the exact bytes of the result, so none of them holds by way of a dropped store.
* The storage mode is the ghost field `on_heap`, set by the branch of
  `construct(size_type, sp)` that ran; `in_sbo()` compares the capacity, as in the spec.
* A member function returns an `Out`: the object after the call, the memory resource
  after the call, and either the returned value or the exception thrown.
-/

set_option maxRecDepth 100000

namespace BoostJson

/-- Exceptions: `std::length_error` (SizeExceeded), `std::out_of_range` (OutOfRange) and
the exception of a failing `allocate` (AllocationFailed). -/
inductive Error where
  | length_error
  | out_of_range
  | bad_alloc
  deriving DecidableEq

instance instDecidableEqExcept {α : Type} [DecidableEq α] : DecidableEq (Except Error α)
  | .ok a, .ok b =>
    if h : a = b then isTrue (by rw [h]) else isFalse (fun h1 => h (Except.ok.inj h1))
  | .error a, .error b =>
    if h : a = b then isTrue (by rw [h]) else isFalse (fun h1 => h (Except.error.inj h1))
  | .ok _, .error _ => isFalse (fun h => by cases h)
  | .error _, .ok _ => isFalse (fun h => by cases h)

/-- Constants of `string::impl` that the sources at hand use but do not declare. -/
structure Config where
  /-- width of `size_type` in bits -/
  bits : Nat
  /-- constant `max_size_` (MAX_SIZE) -/
  max_size_ : Nat
  /-- constant `mask_` -/
  mask_ : Nat
  /-- value of `sizeof(buf)` (INLINE_CAPACITY + 1) -/
  buf_size : Nat

/-- Addition of two `size_type` values. -/
def Config.add (c : Config) (a b : Nat) : Nat := (a + b) % 2 ^ c.bits

/-- Subtraction of two `size_type` values (both below `2 ^ bits`). -/
def Config.sub (c : Config) (a b : Nat) : Nat := (a + 2 ^ c.bits - b) % 2 ^ c.bits

/-- Conversion of a count to `size_type`. -/
def Config.wrap (c : Config) (a : Nat) : Nat := a % 2 ^ c.bits

/-- The value `sizeof(buf) - 1` (INLINE_CAPACITY), a compile-time constant. -/
def Config.inline_capacity (c : Config) : Nat := c.buf_size - 1

/-- Constraints on the constants: the inline array is not empty, INLINE_CAPACITY is
below MAX_SIZE, and MAX_SIZE + 1 (the largest byte count ever requested) is a
`size_type` value. -/
def Config.ok (c : Config) : Prop :=
  0 < c.buf_size ∧ c.buf_size - 1 < c.max_size_ ∧ c.max_size_ + 1 < 2 ^ c.bits

instance (c : Config) : Decidable c.ok := by
  unfold Config.ok; infer_instance

/-! ## The memory resource -/

/-- A heap block: the address returned by `allocate` and the bytes stored there. -/
structure Block where
  addr : Nat
  bytes : List Nat
  deriving DecidableEq

/-- Modelled from the spec: the memory resource behind `storage_ptr`, of which only the
contract `allocate(bytes, align)` / `deallocate(p, bytes, align)` is specified (section 6).
`fail k` tells whether the `k`-th call of `allocate` throws, `junk k i` is the
indeterminate byte at offset `i` of the block returned by the `k`-th call, `calls` counts
the calls of `allocate` so far and `live` lists the blocks allocated and not yet
deallocated, each with the byte count it was requested with. -/
structure storage where
  fail : Nat → Bool
  junk : Nat → Nat → Nat
  calls : Nat
  live : List (Nat × Nat)

/-- Modelled from the spec: `allocate(byte_count, 1)`; fails with AllocationFailed or
returns a fresh block of `byte_count` bytes. -/
def storage.allocate (sp : storage) (n : Nat) : Except Error Block × storage :=
  if sp.fail sp.calls then
    (.error .bad_alloc, { sp with calls := sp.calls + 1 })
  else
    (.ok ⟨sp.calls, (List.range n).map (sp.junk sp.calls)⟩,
     { sp with calls := sp.calls + 1, live := (sp.calls, n) :: sp.live })

/-- Modelled from the spec: `deallocate(p, byte_count, 1)`; releases the block that was
returned by `allocate` with the same byte count, and cannot fail. -/
def storage.deallocate (sp : storage) (addr n : Nat) : storage :=
  { sp with live := sp.live.erase (addr, n) }

/-! ## The representation -/

/-- The struct `string::impl`.  `on_heap` is a ghost field: it records which member of
the union was set up last (`false`: the inline array, `true`: the pointer `p`). -/
structure impl where
  size : Nat
  capacity : Nat
  buf : List Nat
  p : Block
  on_heap : Bool
  deriving DecidableEq

/-- A `char*` into an `impl`: into the block at `p` (`heap = true`) or into `buf`. -/
structure Ptr where
  heap : Bool
  off : Nat
  deriving DecidableEq

/-- Pointer arithmetic `d + k`. -/
def Ptr.plus (d : Ptr) (k : Nat) : Ptr := ⟨d.heap, d.off + k⟩

/-- Pointer arithmetic `d - k` (within the array: `k` is at most the offset of `d`). -/
def Ptr.minus (d : Ptr) (k : Nat) : Ptr := ⟨d.heap, d.off - k⟩

/-- The object after a member function returned or threw, the memory resource after the
call, and the value returned or the exception thrown. -/
structure Out (α : Type) where
  self : impl
  sp : storage
  ret : Except Error α

/-- The bytes of one member of the union. -/
def impl.mem (s : impl) (heap : Bool) : List Nat :=
  if heap then s.p.bytes else s.buf

/-- Consecutive assignments `d[0] = b0; d[1] = b1; ...` into an array. -/
def writeAt : List Nat → Nat → List Nat → List Nat
  | m, _, [] => m
  | m, off, b :: bs => writeAt (m.set off b) (off + 1) bs

/-- Writing the bytes `bs` through the pointer `d`. -/
def impl.store (s : impl) (d : Ptr) (bs : List Nat) : impl :=
  if d.heap then { s with p := { s.p with bytes := writeAt s.p.bytes d.off bs } }
  else { s with buf := writeAt s.buf d.off bs }

/-- Reading `n` bytes through the pointer `d`. -/
def impl.load (s : impl) (d : Ptr) (n : Nat) : List Nat :=
  ((s.mem d.heap).drop d.off).take n

/-- Modelled from the spec: `in_sbo()`, declared in the missing header.  The storage is
the inline array iff `capacity == INLINE_CAPACITY` (section 3). -/
def in_sbo (c : Config) (s : impl) : Bool := s.capacity == c.inline_capacity

/-- Modelled from the spec: `data()`, declared in the missing header: the start of the
active storage, `buf` when inline and `p` otherwise. -/
def data (c : Config) (s : impl) : Ptr := ⟨!in_sbo c s, 0⟩

/-- Modelled from the spec: `end()`, declared in the missing header: `data() + size`. -/
def end_ (c : Config) (s : impl) : Ptr := (data c s).plus s.size

/-- Modelled from the spec: `term(n)`, declared in the missing header: sets the length
to `n` and writes the terminator at index `n` of the active storage. -/
def term (c : Config) (s : impl) (n : Nat) : impl :=
  let s1 := { s with size := n }
  s1.store ((data c s1).plus n) [0]

/-- Source: `string::impl::growth` (lines 23-43). -/
def growth (c : Config) (new_size capacity : Nat) : Except Error Nat :=
  if new_size > c.max_size_ then .error .length_error
  else
    let new_size := new_size ||| c.mask_
    if new_size > c.max_size_ then .ok c.max_size_
    else if capacity > c.sub c.max_size_ (capacity / 2) then .ok c.max_size_
    else .ok (max new_size (c.add capacity (capacity / 2)))

/-- Source: `string::impl::destroy` (lines 45-54). -/
def destroy (c : Config) (s : impl) (sp : storage) : storage :=
  if !in_sbo c s then sp.deallocate s.p.addr (c.add s.capacity 1) else sp

/-- Source: `string::impl::construct()` (lines 56-64), construct_empty. -/
def construct (c : Config) (s : impl) : impl :=
  { s with size := 0, capacity := c.inline_capacity, buf := s.buf.set 0 0,
           on_heap := false }

/-- Source: `string::impl::construct(size_type, storage_ptr const&)` (lines 66-85). -/
def construct_size (c : Config) (s : impl) (new_size : Nat) (sp : storage) : Out Ptr :=
  if new_size < c.buf_size then
    ⟨{ s with capacity := c.inline_capacity, on_heap := false }, sp, .ok ⟨false, 0⟩⟩
  else
    match growth c new_size c.inline_capacity with
    | .error e => ⟨s, sp, .error e⟩
    | .ok g =>
      let s1 := { s with capacity := g }
      match sp.allocate (c.add g 1) with
      | (.error e, sp1) => ⟨s1, sp1, .error e⟩
      | (.ok blk, sp1) => ⟨{ s1 with p := blk, on_heap := true }, sp1, .ok ⟨true, 0⟩⟩

/-- Source: `string::impl::construct(first, last, sp, forward_iterator_tag)` (lines 87-104), the
known-length construct; `B` is the sequence `[first, last)`. -/
def construct_forward (c : Config) (s : impl) (B : List Nat) (sp : storage) : Out Unit :=
  let n := c.wrap B.length
  let r := construct_size c s n sp
  match r.ret with
  | .error e => ⟨r.self, r.sp, .error e⟩
  | .ok dest =>
    let s1 := r.self.store dest B
    let s2 := s1.store (dest.plus B.length) [0]
    ⟨{ s2 with size := n }, r.sp, .ok ()⟩

/-- Source: `string::impl::assign` (lines 145-162).  `tmp` is the indeterminate initial value of
the local `impl tmp;`. -/
def assign (c : Config) (tmp s : impl) (new_size : Nat) (sp : storage) : Out Ptr :=
  if new_size > s.capacity then
    match growth c new_size s.capacity with
    | .error e => ⟨s, sp, .error e⟩
    | .ok g =>
      let r := construct_size c tmp g sp
      match r.ret with
      | .error e => ⟨s, r.sp, .error e⟩
      | .ok _ =>
        let sp2 := destroy c s r.sp
        let s1 := term c r.self new_size
        ⟨s1, sp2, .ok (data c s1)⟩
  else
    let s1 := term c s new_size
    ⟨s1, sp, .ok (data c s1)⟩

/-- Source: `string::impl::append` (lines 164-189).  `tmp` is the indeterminate initial value of
the local `impl tmp;`. -/
def append (c : Config) (tmp s : impl) (n : Nat) (sp : storage) : Out Ptr :=
  if n > c.sub c.max_size_ s.size then ⟨s, sp, .error .length_error⟩
  else if n ≤ c.sub s.capacity s.size then
    let s1 := term c s (c.add s.size n)
    ⟨s1, sp, .ok ((end_ c s1).minus n)⟩
  else
    match growth c (c.add s.size n) s.capacity with
    | .error e => ⟨s, sp, .error e⟩
    | .ok g =>
      let r := construct_size c tmp g sp
      match r.ret with
      | .error e => ⟨s, r.sp, .error e⟩
      | .ok dest =>
        let t1 := r.self.store dest (s.load (data c s) s.size)
        let t2 := term c t1 (c.add s.size n)
        let sp2 := destroy c s r.sp
        ⟨t2, sp2, .ok ((end_ c t2).minus n)⟩

/-- Source: `string::impl::insert` (lines 191-233).  `tmp` is the indeterminate initial value of
the local `impl tmp;`. -/
def insert (c : Config) (tmp s : impl) (pos n : Nat) (sp : storage) : Out Ptr :=
  if pos > s.size then ⟨s, sp, .error .out_of_range⟩
  else if n ≤ c.sub s.capacity s.size then
    let dest := (data c s).plus pos
    let s1 := s.store (dest.plus n) (s.load dest (c.sub (c.add s.size 1) pos))
    ⟨{ s1 with size := c.add s1.size n }, sp, .ok dest⟩
  else if n > c.sub c.max_size_ s.size then ⟨s, sp, .error .length_error⟩
  else
    match growth c (c.add s.size n) s.capacity with
    | .error e => ⟨s, sp, .error e⟩
    | .ok g =>
      let r := construct_size c tmp g sp
      match r.ret with
      | .error e => ⟨s, r.sp, .error e⟩
      | .ok _ =>
        let t1 := { r.self with size := c.add s.size n }
        let t2 := t1.store (data c t1) (s.load (data c s) pos)
        let t3 := t2.store (((data c t2).plus pos).plus n)
          (s.load ((data c s).plus pos) (c.sub (c.add s.size 1) pos))
        let sp2 := destroy c s r.sp
        ⟨t3, sp2, .ok ((data c t3).plus pos)⟩

/-- The loop of the single-pass construct (lines 133-140) over the remaining elements;
`dest` is the write position.  `tmp k` is the indeterminate initial value of the local
`impl tmp;` of the `append` called while `k` elements remain. -/
def construct_input_loop (c : Config) (tmp : Nat → impl) :
    impl → storage → Ptr → List Nat → Out Ptr
  | s, sp, dest, [] => ⟨s, sp, .ok dest⟩
  | s, sp, dest, b :: rest =>
    if s.size < s.capacity then
      let s1 := { s with size := c.add s.size 1 }
      construct_input_loop c tmp (s1.store dest [b]) sp (dest.plus 1) rest
    else
      let r := append c (tmp (rest.length + 1)) s 1 sp
      match r.ret with
      | .error e => ⟨r.self, r.sp, .error e⟩
      | .ok d => construct_input_loop c tmp (r.self.store d [b]) r.sp (d.plus 1) rest

/-- Source: `string::impl::construct(first, last, sp, input_iterator_tag)` (lines 106-143), the
single-pass construct.  The first element is read without a test `first != last`: on an
empty sequence the behaviour is undefined (`none`).  When an exception leaves the function
the guard `undo` calls `destroy`. -/
def construct_input (c : Config) (tmp : Nat → impl) (s : impl) :
    List Nat → storage → Option (Out Unit)
  | [], _ => none
  | b :: rest, sp =>
    let r := construct_size c s 1 sp
    match r.ret with
    | .error e => some ⟨r.self, destroy c r.self r.sp, .error e⟩
    | .ok dest =>
      let s1 := { r.self with size := 1 }
      let s2 := s1.store dest [b]
      let l := construct_input_loop c tmp s2 r.sp (dest.plus 1) rest
      match l.ret with
      | .error e => some ⟨l.self, destroy c l.self l.sp, .error e⟩
      | .ok d => some ⟨l.self.store d [0], l.sp, .ok ()⟩

/-- Source: `string::impl::unalloc` (lines 235-248), shrink_to_inline.  The two `BOOST_ASSERT`s
are preconditions and compile to nothing in a release build. -/
def unalloc (c : Config) (s : impl) (sp : storage) : impl × storage :=
  let p_ := s.p
  let s1 := s.store ⟨false, 0⟩ (s.load (data c s) (c.add s.size 1))
  let sp1 := sp.deallocate p_.addr (c.add s.capacity 1)
  ({ s1 with capacity := c.inline_capacity, on_heap := false }, sp1)

/-- The copy `traits_type::copy(s_.insert(off, n, sp_), src, n)` of `string::insert`
(lines 313-317): a gap of `|B|` bytes is opened at `pos` and filled with `B`. -/
def insert_fill (c : Config) (tmp s : impl) (pos : Nat) (B : List Nat) (sp : storage) :
    Out Ptr :=
  let r := insert c tmp s pos (c.wrap B.length) sp
  match r.ret with
  | .error e => ⟨r.self, r.sp, .error e⟩
  | .ok dest => ⟨r.self.store dest B, r.sp, .ok dest⟩

/-- Source: `string::append(first, last, forward_iterator_tag)` (lines 358-369):
`std::copy(first, last, s_.append(n, sp_))`. -/
def append_fill (c : Config) (tmp s : impl) (B : List Nat) (sp : storage) : Out Ptr :=
  let r := append c tmp s (c.wrap B.length) sp
  match r.ret with
  | .error e => ⟨r.self, r.sp, .error e⟩
  | .ok dest => ⟨r.self.store dest B, r.sp, .ok dest⟩

/-! ## Observations and invariants -/

/-- The bytes of the active storage. -/
def bytes (c : Config) (s : impl) : List Nat := s.mem (data c s).heap

/-- The content: bytes `[0, size)` of the active storage. -/
def content (c : Config) (s : impl) : List Nat := (bytes c s).take s.size

/-- Terminator invariant: the active storage has an index `size`, and the byte there
is 0. -/
def TermInv (c : Config) (s : impl) : Prop := (bytes c s)[s.size]? = some 0

/-- The bounds `size <= capacity <= max_size_`. -/
def Bounds (c : Config) (s : impl) : Prop :=
  s.size ≤ s.capacity ∧ s.capacity ≤ c.max_size_

/-- The storage mode is inline iff `capacity == INLINE_CAPACITY`. -/
def Mode (c : Config) (s : impl) : Prop :=
  s.on_heap = false ↔ s.capacity = c.inline_capacity

/-- Representation invariant: `size <= capacity <= max_size_`, and the storage mode is
inline iff `capacity == INLINE_CAPACITY`. -/
def RepInv (c : Config) (s : impl) : Prop := Bounds c s ∧ Mode c s

/-- Storage typing: `buf` is an array of `sizeof(buf)` bytes, and the heap block in use
when `in_sbo()` is false has `capacity + 1` bytes. -/
def Sized (c : Config) (s : impl) : Prop :=
  s.buf.length = c.buf_size ∧ (in_sbo c s = false → s.p.bytes.length = s.capacity + 1)

/-- The data-model invariants of section 3. -/
def Inv (c : Config) (s : impl) : Prop := RepInv c s ∧ Sized c s ∧ TermInv c s

instance (c : Config) (s : impl) : Decidable (TermInv c s) := by
  unfold TermInv; infer_instance

instance (c : Config) (s : impl) : Decidable (Bounds c s) := by
  unfold Bounds; infer_instance

instance (c : Config) (s : impl) : Decidable (Mode c s) := by
  unfold Mode; infer_instance

instance (c : Config) (s : impl) : Decidable (RepInv c s) := by
  unfold RepInv; infer_instance

instance (c : Config) (s : impl) : Decidable (Sized c s) := by
  unfold Sized; infer_instance

instance (c : Config) (s : impl) : Decidable (Inv c s) := by
  unfold Inv; infer_instance

/-- A memory resource whose `allocate` never fails. -/
def storage.succeeds (sp : storage) : Prop := ∀ k, sp.fail k = false

/-! ## Sample values -/

/-- A sample configuration: 8-bit `size_type`, `max_size_ = 200`, `mask_ = 15`,
`sizeof(buf) = 20`. -/
def cfg8 : Config := ⟨8, 200, 15, 20⟩

/-- An indeterminate `impl`, as left by `impl tmp;`. -/
def junk_impl : impl := ⟨77, 88, List.replicate 20 9, ⟨0, []⟩, true⟩

/-- A memory resource that never fails and owns no block yet. -/
def mem_ok : storage := ⟨fun _ => false, fun k i => 100 + k + i, 0, []⟩

/-- A memory resource whose every `allocate` fails. -/
def mem_fail : storage := ⟨fun _ => true, fun k i => 100 + k + i, 0, []⟩

/-- The inline string "abc" (bytes 1, 2, 3) under `cfg8`. -/
def abc : impl := ⟨3, 19, [1, 2, 3, 0] ++ List.replicate 16 9, ⟨0, []⟩, false⟩

/-- Source: `string::assign(first, last, forward_iterator_tag)` (lines 323-335):
`dest = s_.assign(n, sp_)`, then the elements are copied to `dest`. -/
def assign_fill (c : Config) (tmp s : impl) (B : List Nat) (sp : storage) : Out Unit :=
  let r := assign c tmp s (c.wrap B.length) sp
  match r.ret with
  | .error e => ⟨r.self, r.sp, .error e⟩
  | .ok dest => ⟨r.self.store dest B, r.sp, .ok ()⟩

/-- Source: `string::assign(first, last, input_iterator_tag)` (lines 337-356): the empty
sequence is handled by `s_.term(0)`, every other one by the single-pass construct of a
temporary that replaces `s_`. -/
def assign_input (c : Config) (tmps : Nat → impl) (tmp s : impl) (B : List Nat)
    (sp : storage) : Option (Out Unit) :=
  match B with
  | [] => some ⟨term c s 0, sp, .ok ()⟩
  | b :: rest =>
    match construct_input c tmps tmp (b :: rest) sp with
    | none => none
    | some r =>
      match r.ret with
      | .error e => some ⟨s, r.sp, .error e⟩
      | .ok _ => some ⟨r.self, destroy c s r.sp, .ok ()⟩

/-- The function `growth` over unbounded naturals: the same tests and results, with
`+` and `-` that cannot wrap around. -/
def growth_nat (c : Config) (new_size capacity : Nat) : Except Error Nat :=
  if new_size > c.max_size_ then .error .length_error
  else
    let new_size := new_size ||| c.mask_
    if new_size > c.max_size_ then .ok c.max_size_
    else if capacity > c.max_size_ - capacity / 2 then .ok c.max_size_
    else .ok (max new_size (capacity + capacity / 2))

/-- The test `capacity > max_size_ - capacity / 2` of `growth` (lines 38-39). -/
def overflow_test (c : Config) (capacity : Nat) : Prop :=
  capacity > c.sub c.max_size_ (capacity / 2)

instance (c : Config) (capacity : Nat) : Decidable (overflow_test c capacity) := by
  unfold overflow_test; infer_instance

/-- Modelled from the spec: `requested_size` rounded up to the next multiple of the
block size `mask_ + 1` (section 4.1). -/
def round_up (c : Config) (req : Nat) : Nat :=
  (req + c.mask_) / (c.mask_ + 1) * (c.mask_ + 1)

/-- Modelled from the spec: the growth formula of section 4.1, with block rounding:
`max_size_` if the rounded request meets or exceeds it or if the geometric value
overflows, otherwise the larger of the rounded request and `capacity + capacity / 2`. -/
def growth_rounding (c : Config) (req capacity : Nat) : Nat :=
  if round_up c req ≥ c.max_size_ then c.max_size_
  else if capacity > c.max_size_ - capacity / 2 then c.max_size_
  else max (round_up c req) (capacity + capacity / 2)

/-- A heap string of 100 bytes under `cfg8`, in a block of 101 bytes, full
(`size = capacity = 100`). -/
def full100 : impl := ⟨100, 100, List.replicate 20 9, ⟨0, List.replicate 100 7 ++ [0]⟩, true⟩

/-- Ownership: the blocks live beyond the list `L0` are exactly the block the object
holds: none when it is inline, the block at `p` with `capacity + 1` bytes otherwise. -/
def Owns (c : Config) (L0 : List (Nat × Nat)) (s : impl) (sp : storage) : Prop :=
  (in_sbo c s = true ∧ sp.live = L0) ∨
    (in_sbo c s = false ∧ sp.live = (s.p.addr, s.capacity + 1) :: L0 ∧ s.p.addr < sp.calls)

/-- A memory resource with one live block whose `allocate` fails at its second call from
now. -/
def mem_fail_second : storage := ⟨fun k => k == 6, fun k i => 100 + k + i, 5, [(1, 48)]⟩

/-- The single-pass construct of a 50-byte sequence on `mem_fail_second`: the first
allocation succeeds, the second one fails. -/
def failed_run : Option (Out Unit) :=
  construct_input cfg8 (fun _ => junk_impl) junk_impl (List.range 50) mem_fail_second

/-! ## Arithmetic of `size_type` -/

theorem junk_impl_sized : junk_impl.buf.length = cfg8.buf_size := by decide

theorem Config.sub_eq (c : Config) {a b : Nat} (hb : b ≤ a) (ha : a < 2 ^ c.bits) :
    c.sub a b = a - b := by
  unfold Config.sub
  have h : a + 2 ^ c.bits - b = (a - b) + 2 ^ c.bits := by omega
  rw [h, Nat.add_mod_right]
  exact Nat.mod_eq_of_lt (by omega)

theorem Config.add_eq (c : Config) {a b : Nat} (h : a + b < 2 ^ c.bits) :
    c.add a b = a + b :=
  Nat.mod_eq_of_lt h

theorem Config.wrap_eq (c : Config) {a : Nat} (h : a < 2 ^ c.bits) : c.wrap a = a :=
  Nat.mod_eq_of_lt h

theorem Config.add_lt (c : Config) (a b : Nat) : c.add a b < 2 ^ c.bits :=
  Nat.mod_lt _ (Nat.pos_pow_of_pos _ (by decide))

/-- A bitwise or is at least its left operand. -/
theorem le_lor (a b : Nat) : a ≤ a ||| b := by
  induction a using Nat.strongRecOn generalizing b with
  | _ a ih =>
    rcases Nat.eq_zero_or_pos a with h0 | hpos
    · subst h0; exact Nat.zero_le _
    · have hlt : a / 2 < a := Nat.div_lt_self hpos (by decide)
      have h1 := ih (a / 2) hlt (b / 2)
      have h2 : (a ||| b) / 2 = a / 2 ||| b / 2 := Nat.or_div_two
      have h3 : a % 2 = 1 → (a ||| b) % 2 = 1 := fun h =>
        Nat.or_mod_two_eq_one.mpr (Or.inl h)
      omega

/-! ## Memory -/

theorem length_writeAt (m : List Nat) (off : Nat) (bs : List Nat) :
    (writeAt m off bs).length = m.length := by
  induction bs generalizing m off with
  | nil => rfl
  | cons b bs ih => simp [writeAt, ih]

/-- An in-bounds `writeAt` replaces the segment `[off, off + |bs|)`. -/
theorem writeAt_eq (m : List Nat) (off : Nat) (bs : List Nat)
    (h : off + bs.length ≤ m.length) :
    writeAt m off bs = m.take off ++ bs ++ m.drop (off + bs.length) := by
  induction bs generalizing m off with
  | nil => simp [writeAt]
  | cons b bs ih =>
    simp only [List.length_cons] at h
    have hlt : off < m.length := by omega
    rw [writeAt, ih _ _ (by simp; omega)]
    rw [List.set_eq_take_append_cons_drop, if_pos hlt]
    have e1 : List.take (off + 1) (List.take off m ++ b :: List.drop (off + 1) m)
        = List.take off m ++ [b] := by
      rw [List.take_append_eq_append_take]
      simp [List.take_take, Nat.min_eq_left (Nat.le_of_lt hlt)]
    have e2 : List.drop (off + 1 + bs.length)
        (List.take off m ++ b :: List.drop (off + 1) m)
        = List.drop (off + (bs.length + 1)) m := by
      have hl : (List.take off m).length = off := by simp; omega
      rw [List.drop_append_eq_append_drop, hl]
      have h1 : off + 1 + bs.length - off = bs.length + 1 := by omega
      have h2 : List.drop (off + 1 + bs.length) (List.take off m) = [] := by
        apply List.drop_eq_nil_of_le; omega
      rw [h1, h2, List.drop_succ_cons, List.drop_drop, List.nil_append]
      congr 1; omega
    rw [e1, e2]; simp

/-- A list with an index `k` splits around that index. -/
theorem split_at_index {m : List Nat} {k v : Nat} (h : m[k]? = some v) :
    m = m.take k ++ v :: m.drop (k + 1) ∧ k < m.length := by
  have hk : k < m.length := by
    rcases Nat.lt_or_ge k m.length with h1 | h1
    · exact h1
    · rw [List.getElem?_eq_none h1] at h; cases h
  refine ⟨?_, hk⟩
  have hv : m[k] = v := by
    rw [List.getElem?_eq_getElem hk] at h; exact Option.some.inj h
  conv_lhs => rw [← List.take_append_drop k m]
  rw [List.drop_eq_getElem_cons hk, hv]

/-- Opening a gap: the bytes after writing the shifted suffix (with its terminator) at
`pos + n` into storage `T` that already holds the prefix `C[0, pos)`. -/
theorem gap_open (C R T : List Nat) (pos n : Nat) (hpos : pos ≤ C.length)
    (hT : C.length + n + 1 ≤ T.length) :
    writeAt T (pos + n) (((C ++ 0 :: R).drop pos).take (C.length + 1 - pos))
      = T.take (pos + n) ++ (C.drop pos ++ 0 :: T.drop (C.length + n + 1)) := by
  have hL : ((C ++ 0 :: R).drop pos).take (C.length + 1 - pos) = C.drop pos ++ [0] := by
    rw [List.drop_append_of_le_length hpos]
    have h1 : C.length + 1 - pos = (C.drop pos).length + 1 := by simp; omega
    rw [h1, List.take_append_eq_append_take]
    simp
  rw [hL]
  have hlen : (C.drop pos ++ [0]).length = C.length + 1 - pos := by simp; omega
  rw [writeAt_eq T _ _ (by rw [hlen]; omega), hlen]
  have : pos + n + (C.length + 1 - pos) = C.length + n + 1 := by omega
  rw [this]; simp

/-! ## Growth policy -/

theorem growth_error_iff (c : Config) (req cap : Nat) (e : Error) :
    growth c req cap = .error e ↔ (e = .length_error ∧ c.max_size_ < req) := by
  unfold growth
  by_cases h : req > c.max_size_
  · rw [if_pos h]
    constructor
    · intro he; cases he; exact ⟨rfl, h⟩
    · rintro ⟨rfl, _⟩; rfl
  · rw [if_neg h]
    constructor
    · intro he; simp only [] at he; split_ifs at he
    · rintro ⟨_, h2⟩; exact absurd h2 h

theorem growth_ok (c : Config) (req cap : Nat) (hr : req ≤ c.max_size_)
    (hc : cap ≤ c.max_size_) :
    ∃ g, growth c req cap = .ok g ∧ req ≤ g ∧ g ≤ c.max_size_ := by
  unfold growth
  have hreq : ¬ req > c.max_size_ := by omega
  have hor := le_lor req c.mask_
  simp only [hreq, if_false]
  split_ifs with h1 h2
  · exact ⟨_, rfl, hr, le_refl _⟩
  · exact ⟨_, rfl, hr, le_refl _⟩
  · refine ⟨_, rfl, le_trans hor (le_max_left _ _), max_le (by omega) ?_⟩
    by_cases hm : c.max_size_ < 2 ^ c.bits
    · have hs : c.sub c.max_size_ (cap / 2) = c.max_size_ - cap / 2 :=
        c.sub_eq (by omega) hm
      rw [hs] at h2
      rw [c.add_eq (by omega)]
      omega
    · have := c.add_lt cap (cap / 2)
      omega

/-! ## Stores and the active storage -/

@[simp] theorem store_size (s : impl) (d : Ptr) (bs : List Nat) :
    (s.store d bs).size = s.size := by
  unfold impl.store; split <;> rfl

@[simp] theorem store_capacity (s : impl) (d : Ptr) (bs : List Nat) :
    (s.store d bs).capacity = s.capacity := by
  unfold impl.store; split <;> rfl

@[simp] theorem store_on_heap (s : impl) (d : Ptr) (bs : List Nat) :
    (s.store d bs).on_heap = s.on_heap := by
  unfold impl.store; split <;> rfl

@[simp] theorem store_addr (s : impl) (d : Ptr) (bs : List Nat) :
    (s.store d bs).p.addr = s.p.addr := by
  unfold impl.store; split <;> rfl

@[simp] theorem store_buf_length (s : impl) (d : Ptr) (bs : List Nat) :
    (s.store d bs).buf.length = s.buf.length := by
  unfold impl.store; split
  · rfl
  · exact length_writeAt _ _ _

@[simp] theorem store_p_length (s : impl) (d : Ptr) (bs : List Nat) :
    (s.store d bs).p.bytes.length = s.p.bytes.length := by
  unfold impl.store; split
  · exact length_writeAt _ _ _
  · rfl

@[simp] theorem in_sbo_store (c : Config) (s : impl) (d : Ptr) (bs : List Nat) :
    in_sbo c (s.store d bs) = in_sbo c s := by
  simp [in_sbo]

@[simp] theorem data_store (c : Config) (s : impl) (d : Ptr) (bs : List Nat) :
    data c (s.store d bs) = data c s := by
  simp [data]

@[simp] theorem in_sbo_size (c : Config) (s : impl) (n : Nat) :
    in_sbo c { s with size := n } = in_sbo c s := rfl

@[simp] theorem data_size (c : Config) (s : impl) (n : Nat) :
    data c { s with size := n } = data c s := rfl

@[simp] theorem bytes_size (c : Config) (s : impl) (n : Nat) :
    bytes c { s with size := n } = bytes c s := rfl

/-- A store through a pointer into the active storage. -/
theorem bytes_store (c : Config) (s : impl) (k : Nat) (bs : List Nat) :
    bytes c (s.store ((data c s).plus k) bs) = writeAt (bytes c s) k bs := by
  unfold bytes
  rw [data_store]
  unfold impl.store impl.mem Ptr.plus data
  cases in_sbo c s <;> simp

theorem Sized_store (c : Config) (s : impl) (d : Ptr) (bs : List Nat) (h : Sized c s) :
    Sized c (s.store d bs) := by
  unfold Sized at *
  simpa using h

theorem Sized_size (c : Config) (s : impl) (n : Nat) (h : Sized c s) :
    Sized c { s with size := n } := h

/-- The active storage of a well-sized object has `capacity + 1` bytes. -/
theorem bytes_length (c : Config) (hc : c.ok) (s : impl) (h : Sized c s) :
    (bytes c s).length = s.capacity + 1 := by
  obtain ⟨hb, hp⟩ := h
  obtain ⟨h0, -, -⟩ := hc
  unfold bytes impl.mem data
  cases hs : in_sbo c s
  · simpa using hp hs
  · have : s.capacity = c.buf_size - 1 := by
      simpa [in_sbo, Config.inline_capacity] using hs
    simp [hb]; omega

theorem load_data (c : Config) (s : impl) (k n : Nat) :
    s.load ((data c s).plus k) n = ((bytes c s).drop k).take n := by
  simp [impl.load, bytes, Ptr.plus, data]

theorem load_data_zero (c : Config) (s : impl) (n : Nat) :
    s.load (data c s) n = (bytes c s).take n := by
  simp [impl.load, bytes, data]

theorem data_plus_zero (c : Config) (s : impl) : (data c s).plus 0 = data c s := rfl

/-! ## `construct(size_type, storage_ptr const&)` -/

/-- The successful `construct(new_size, sp)`: the result has room for `new_size` bytes
and a terminator, the returned pointer is `data()`. -/
theorem construct_size_spec (c : Config) (hc : c.ok) (t : impl)
    (ht : t.buf.length = c.buf_size) (g : Nat) (hg : g ≤ c.max_size_) (sp : storage)
    (hf : g < c.buf_size ∨ sp.fail sp.calls = false) :
    (construct_size c t g sp).ret = .ok (data c (construct_size c t g sp).self) ∧
    g ≤ (construct_size c t g sp).self.capacity ∧
    Bounds c { (construct_size c t g sp).self with size := g } ∧
    Mode c (construct_size c t g sp).self ∧
    Sized c (construct_size c t g sp).self ∧
    (construct_size c t g sp).self.size = t.size ∧
    (construct_size c t g sp).sp.fail = sp.fail := by
  obtain ⟨h0, h1, h2⟩ := hc
  unfold construct_size
  by_cases hlt : g < c.buf_size
  · simp only [if_pos hlt]
    simp [data, in_sbo, Bounds, Mode, Sized, Config.inline_capacity, ht]
    omega
  · simp only [if_neg hlt]
    obtain ⟨g', hg', hle, hmax⟩ := growth_ok c g c.inline_capacity hg (by
      unfold Config.inline_capacity; omega)
    have hne : g' ≠ c.buf_size - 1 := by omega
    have hadd : c.add g' 1 = g' + 1 := c.add_eq (by omega)
    have hf := hf.resolve_left hlt
    simp only [hg', storage.allocate, hf, hadd]
    simp [data, in_sbo, Bounds, Mode, Sized, Config.inline_capacity, ht, hne, hle, hmax]

/-- The only exception of `construct(new_size, sp)` with `new_size <= max_size_` is the
one of `allocate`. -/
theorem construct_size_error (c : Config) (t : impl) (g : Nat) (sp : storage) (e : Error)
    (h : (construct_size c t g sp).ret = .error e) :
    e = .bad_alloc ∨ c.max_size_ < g := by
  unfold construct_size at h
  split_ifs at h
  cases hg : growth c g c.inline_capacity with
  | error e1 =>
    right
    exact ((growth_error_iff c g _ e1).mp hg).2
  | ok g1 =>
    left
    rw [hg] at h
    simp only [storage.allocate] at h
    split_ifs at h
    simp only [Except.error.injEq] at h
    exact h.symm

/-! ## `term` -/

theorem set_terminator (T : List Nat) (k : Nat) (hk : k < T.length) :
    (writeAt T k [0])[k]? = some 0 ∧ ∀ j, j ≤ k → (writeAt T k [0]).take j = T.take j := by
  have e : writeAt T k [0] = T.take k ++ 0 :: T.drop (k + 1) := by
    rw [writeAt_eq T k [0] (by simpa using hk)]; simp
  have hl : (T.take k).length = k := by simp; omega
  rw [e]
  constructor
  · rw [List.getElem?_append_right (by omega), hl]; simp
  · intro j hj
    rw [List.take_append_of_le_length (by omega), List.take_take, Nat.min_eq_left hj]

theorem term_size (c : Config) (s : impl) (k : Nat) : (term c s k).size = k := by
  simp [term]

theorem term_capacity (c : Config) (s : impl) (k : Nat) :
    (term c s k).capacity = s.capacity := by
  simp [term]

theorem term_on_heap (c : Config) (s : impl) (k : Nat) :
    (term c s k).on_heap = s.on_heap := by
  simp [term]

theorem term_addr (c : Config) (s : impl) (k : Nat) :
    (term c s k).p.addr = s.p.addr := by
  simp [term]

theorem term_data (c : Config) (s : impl) (k : Nat) : data c (term c s k) = data c s := by
  simp [term]

theorem term_bytes (c : Config) (s : impl) (k : Nat) :
    bytes c (term c s k) = writeAt (bytes c s) k [0] := by
  unfold term
  exact bytes_store c { s with size := k } k [0]

theorem term_Sized (c : Config) (s : impl) (k : Nat) (h : Sized c s) :
    Sized c (term c s k) :=
  Sized_store c _ _ _ (Sized_size c s k h)

/-- The effect of `term(k)` when index `k` is within the capacity. -/
theorem term_spec (c : Config) (hc : c.ok) (s : impl) (hS : Sized c s) (k : Nat)
    (hk : k ≤ s.capacity) :
    TermInv c (term c s k) ∧
      ∀ j, j ≤ k → (bytes c (term c s k)).take j = (bytes c s).take j := by
  have hl := bytes_length c hc s hS
  have h := set_terminator (bytes c s) k (by omega)
  unfold TermInv
  rw [term_bytes, term_size]
  exact h

/-! ## `append` -/

/-- Copying `C` to the start of a block. -/
theorem take_writeAt_zero (T C : List Nat) (h : C.length ≤ T.length) :
    (writeAt T 0 C).take C.length = C := by
  rw [writeAt_eq T 0 C (by omega)]
  simp

/-- The successful `append(n)`. -/
theorem append_spec_aux (c : Config) (hc : c.ok) (tmp s : impl)
    (htmp : tmp.buf.length = c.buf_size) (hB : Bounds c s) (hS : Sized c s) (n : Nat)
    (hn : n ≤ c.max_size_ - s.size) (sp : storage)
    (hf : n ≤ s.capacity - s.size ∨ ∀ g, growth c (s.size + n) s.capacity = .ok g →
      (g < c.buf_size ∨ sp.fail sp.calls = false)) :
    ∃ t sp1, append c tmp s n sp = ⟨t, sp1, .ok ((data c t).plus s.size)⟩ ∧
      t.size = s.size + n ∧ Bounds c t ∧ Sized c t ∧ TermInv c t ∧
      (bytes c t).take s.size = content c s ∧ (Mode c s → Mode c t) ∧
      sp1.fail = sp.fail := by
  obtain ⟨hsz, hcap⟩ := hB
  have hok := hc
  obtain ⟨h0, h1, h2⟩ := hc
  have hs1 : c.sub c.max_size_ s.size = c.max_size_ - s.size :=
    c.sub_eq (by omega) (by omega)
  have hs2 : c.sub s.capacity s.size = s.capacity - s.size :=
    c.sub_eq hsz (by omega)
  have ha : c.add s.size n = s.size + n := c.add_eq (by omega)
  unfold append
  rw [hs1, hs2, ha, if_neg (by omega)]
  by_cases hin : n ≤ s.capacity - s.size
  · rw [if_pos hin]
    obtain ⟨hT, hpre⟩ := term_spec c hok s hS (s.size + n) (by omega)
    refine ⟨term c s (s.size + n), sp, ?_, term_size _ _ _, ?_, term_Sized _ _ _ hS, hT,
      ?_, ?_, rfl⟩
    · simp [end_, Ptr.minus, Ptr.plus, term_size, term_data]
      omega
    · simp only [Bounds, term_size, term_capacity]; omega
    · rw [hpre _ (by omega)]; rfl
    · simp only [Mode, term_on_heap, term_capacity]; exact id
  · rw [if_neg hin]
    obtain ⟨g, hg, hle, hmax⟩ := growth_ok c (s.size + n) s.capacity
      (by omega) hcap
    obtain ⟨hret, hgc, hBt, hMt, hSt, -, hfl⟩ :=
      construct_size_spec c hok tmp htmp g hmax sp (hf.resolve_left hin g hg)
    simp only [hg, hret]
    generalize (construct_size c tmp g sp).self = t1 at *
    generalize (construct_size c tmp g sp).sp = sp1 at *
    have hl1 := bytes_length c hok t1 hSt
    have hls := bytes_length c hok s hS
    have hS2 : Sized c (t1.store (data c t1) (s.load (data c s) s.size)) :=
      Sized_store _ _ _ _ hSt
    obtain ⟨hT, hpre⟩ := term_spec c hok _ hS2 (s.size + n) (by simp; omega)
    have hC : (content c s).length = s.size := by
      simp [content]; omega
    refine ⟨term c (t1.store (data c t1) (s.load (data c s) s.size)) (s.size + n),
      destroy c s sp1, ?_, term_size _ _ _, ?_, term_Sized _ _ _ hS2, hT, ?_, ?_, ?_⟩
    · simp [end_, Ptr.minus, Ptr.plus, term_size, term_data]
      omega
    · simp only [Bounds, term_size, term_capacity, store_capacity]
      have := hBt.2; simp only at this; omega
    · rw [hpre _ (by omega), load_data_zero]
      have hb := bytes_store c t1 0 ((bytes c s).take s.size)
      rw [data_plus_zero] at hb
      rw [hb]
      have := take_writeAt_zero (bytes c t1) (content c s) (by omega)
      rw [hC] at this
      exact this
    · intro _
      simpa only [Mode, term_on_heap, term_capacity, store_on_heap, store_capacity]
        using hMt
    · unfold destroy storage.deallocate
      split <;> simp [hfl]

/-- In place, `append(n)` is `term(size + n)`: nothing is allocated. -/
theorem append_inplace (c : Config) (hc : c.ok) (tmp s : impl) (hB : Bounds c s) (n : Nat)
    (hin : n ≤ s.capacity - s.size) (sp : storage) :
    (append c tmp s n sp).self = term c s (s.size + n) ∧ (append c tmp s n sp).sp = sp := by
  obtain ⟨hsz, hcap⟩ := hB
  obtain ⟨h0, h1, h2⟩ := hc
  have hs1 : c.sub c.max_size_ s.size = c.max_size_ - s.size :=
    c.sub_eq (by omega) (by omega)
  have hs2 : c.sub s.capacity s.size = s.capacity - s.size :=
    c.sub_eq hsz (by omega)
  have ha : c.add s.size n = s.size + n := c.add_eq (by omega)
  unfold append
  rw [hs1, hs2, ha, if_neg (by omega), if_pos hin]
  exact ⟨rfl, rfl⟩

/-- The call `append(n)` throws `length_error` exactly when `n > max_size_ - size`. -/
theorem append_length_error_iff (c : Config) (hc : c.ok) (tmp s : impl) (hB : Bounds c s)
    (n : Nat) (sp : storage) :
    (append c tmp s n sp).ret = .error .length_error ↔ c.max_size_ - s.size < n := by
  obtain ⟨hsz, hcap⟩ := hB
  obtain ⟨h0, h1, h2⟩ := hc
  have hs1 : c.sub c.max_size_ s.size = c.max_size_ - s.size :=
    c.sub_eq (by omega) (by omega)
  unfold append
  rw [hs1]
  by_cases hgt : n > c.max_size_ - s.size
  · rw [if_pos hgt]; exact ⟨fun _ => hgt, fun _ => rfl⟩
  · rw [if_neg hgt]
    refine ⟨fun h => ?_, fun h => absurd h hgt⟩
    exfalso
    have ha : c.add s.size n = s.size + n := c.add_eq (by omega)
    rw [ha] at h
    obtain ⟨g, hg, -, hmax⟩ := growth_ok c (s.size + n) s.capacity
      (by omega) hcap
    rw [hg] at h
    split_ifs at h
    simp only [] at h
    cases hr : (construct_size c tmp g sp).ret with
    | error e =>
      rw [hr] at h
      simp only [Except.error.injEq] at h
      subst h
      rcases construct_size_error c tmp g sp _ hr with h3 | h3
      · cases h3
      · omega
    | ok d =>
      rw [hr] at h
      simp at h

/-! ## `insert` -/

theorem plus_plus (d : Ptr) (a b : Nat) : (d.plus a).plus b = d.plus (a + b) := by
  simp [Ptr.plus, Nat.add_assoc]

/-- The storage after the suffix and its terminator were moved to `pos + n`. -/
theorem gap_open_props (C R T : List Nat) (pos n : Nat) (hpos : pos ≤ C.length)
    (hT : C.length + n + 1 ≤ T.length) (hpre : T.take pos = C.take pos) :
    (writeAt T (pos + n) (((C ++ 0 :: R).drop pos).take (C.length + 1 - pos))).take pos
        = C.take pos ∧
    (writeAt T (pos + n) (((C ++ 0 :: R).drop pos).take (C.length + 1 - pos))).drop (pos + n)
        = C.drop pos ++ 0 :: T.drop (C.length + n + 1) := by
  rw [gap_open C R T pos n hpos hT]
  have htk : (T.take (pos + n)).length = pos + n := by simp; omega
  constructor
  · rw [List.take_append_of_le_length (by omega), List.take_take,
      Nat.min_eq_left (by omega), hpre]
  · rw [List.drop_left' htk]

/-- The content and the terminator, as a decomposition of the active storage. -/
theorem bytes_split (c : Config) (s : impl) (hT : TermInv c s) :
    bytes c s = content c s ++ 0 :: (bytes c s).drop (s.size + 1) ∧
      (content c s).length = s.size ∧ s.size < (bytes c s).length := by
  obtain ⟨h1, h2⟩ := split_at_index hT
  refine ⟨h1, ?_, h2⟩
  simp [content]; omega

/-- The shifted suffix written by `insert`, on the storage of a terminated string. -/
theorem insert_bytes (c : Config) (s : impl) (hT : TermInv c s) (T : List Nat)
    (pos n : Nat) (hpos : pos ≤ s.size) (hlen : s.size + n + 1 ≤ T.length)
    (hpre : T.take pos = (content c s).take pos) :
    (writeAt T (pos + n) (((bytes c s).drop pos).take (s.size + 1 - pos))).take pos
        = (content c s).take pos ∧
    (writeAt T (pos + n) (((bytes c s).drop pos).take (s.size + 1 - pos))).drop (pos + n)
        = (content c s).drop pos ++ 0 :: T.drop (s.size + n + 1) := by
  obtain ⟨hM, hC, -⟩ := bytes_split c s hT
  have key := gap_open_props (content c s) ((bytes c s).drop (s.size + 1)) T pos n
    (by omega) (by omega) hpre
  rw [← hM, hC] at key
  exact key

theorem take_content (c : Config) (s : impl) (pos : Nat) (hpos : pos ≤ s.size) :
    (content c s).take pos = (bytes c s).take pos := by
  rw [content, List.take_take, Nat.min_eq_left hpos]

/-- The successful `insert(pos, n)`. -/
theorem insert_spec_aux (c : Config) (hc : c.ok) (tmp s : impl)
    (htmp : tmp.buf.length = c.buf_size) (hB : Bounds c s) (hS : Sized c s)
    (hT : TermInv c s) (pos n : Nat) (hpos : pos ≤ s.size)
    (hn : n ≤ c.max_size_ - s.size) (sp : storage)
    (hf : n ≤ s.capacity - s.size ∨ ∀ g, growth c (s.size + n) s.capacity = .ok g →
      (g < c.buf_size ∨ sp.fail sp.calls = false)) :
    ∃ t sp1, insert c tmp s pos n sp = ⟨t, sp1, .ok ((data c t).plus pos)⟩ ∧
      t.size = s.size + n ∧ Bounds c t ∧ Sized c t ∧
      (bytes c t).take pos = (content c s).take pos ∧
      (∃ R, (bytes c t).drop (pos + n) = (content c s).drop pos ++ 0 :: R) ∧
      (Mode c s → Mode c t) ∧ sp1.fail = sp.fail := by
  obtain ⟨hsz, hcap⟩ := hB
  have hok := hc
  obtain ⟨h0, h1, h2⟩ := hc
  have hs1 : c.sub c.max_size_ s.size = c.max_size_ - s.size :=
    c.sub_eq (by omega) (by omega)
  have hs2 : c.sub s.capacity s.size = s.capacity - s.size :=
    c.sub_eq hsz (by omega)
  have ha : c.add s.size n = s.size + n := c.add_eq (by omega)
  have ha1 : c.add s.size 1 = s.size + 1 := c.add_eq (by omega)
  have hs3 : c.sub (s.size + 1) pos = s.size + 1 - pos :=
    c.sub_eq (by omega) (by omega)
  have hls := bytes_length c hok s hS
  unfold insert
  rw [if_neg (by omega), hs2, hs1, ha1, hs3]
  by_cases hin : n ≤ s.capacity - s.size
  · rw [if_pos hin]
    simp only [store_size, ha, plus_plus, load_data]
    have hb := bytes_store c s (pos + n) (((bytes c s).drop pos).take (s.size + 1 - pos))
    obtain ⟨k1, k2⟩ := insert_bytes c s hT (bytes c s) pos n hpos (by omega)
      (take_content c s pos hpos).symm
    refine ⟨{ s.store ((data c s).plus (pos + n))
        (((bytes c s).drop pos).take (s.size + 1 - pos)) with size := s.size + n }, sp,
      ?_, rfl, ?_, ?_, ?_, ?_, ?_, rfl⟩
    · simp [data, in_sbo]
    · simp only [Bounds, store_capacity]; omega
    · exact Sized_size c _ _ (Sized_store c _ _ _ hS)
    · rw [bytes_size, hb]; exact k1
    · rw [bytes_size, hb, k2]; exact ⟨_, rfl⟩
    · simp only [Mode, store_on_heap, store_capacity]; exact id
  · rw [if_neg hin, if_neg (by omega)]
    obtain ⟨g, hg, hle, hmax⟩ := growth_ok c (s.size + n) s.capacity
      (by omega) hcap
    obtain ⟨hret, hgc, hBt, hMt, hSt, -, hfl⟩ :=
      construct_size_spec c hok tmp htmp g hmax sp (hf.resolve_left hin g hg)
    simp only [ha, hg, hret, plus_plus, load_data, load_data_zero, data_store, data_size]
    generalize (construct_size c tmp g sp).self = t1 at *
    generalize (construct_size c tmp g sp).sp = sp1 at *
    have hl1 := bytes_length c hok t1 hSt
    have hb1 : bytes c (({ t1 with size := s.size + n } : impl).store (data c t1)
        ((bytes c s).take pos)) = writeAt (bytes c t1) 0 ((bytes c s).take pos) :=
      bytes_store c { t1 with size := s.size + n } 0 ((bytes c s).take pos)
    have hb2 : bytes c ((({ t1 with size := s.size + n } : impl).store (data c t1)
        ((bytes c s).take pos)).store ((data c t1).plus (pos + n))
        (((bytes c s).drop pos).take (s.size + 1 - pos)))
        = writeAt (writeAt (bytes c t1) 0 ((bytes c s).take pos)) (pos + n)
          (((bytes c s).drop pos).take (s.size + 1 - pos)) := by
      have h := bytes_store c
        (({ t1 with size := s.size + n } : impl).store (data c t1) ((bytes c s).take pos))
        (pos + n) (((bytes c s).drop pos).take (s.size + 1 - pos))
      rw [data_store, hb1] at h
      exact h
    have hlt : ((bytes c s).take pos).length = pos := by simp; omega
    have hpre : (writeAt (bytes c t1) 0 ((bytes c s).take pos)).take pos
        = (content c s).take pos := by
      have := take_writeAt_zero (bytes c t1) ((bytes c s).take pos) (by omega)
      rw [hlt] at this
      rw [this, take_content c s pos hpos]
    obtain ⟨k1, k2⟩ := insert_bytes c s hT (writeAt (bytes c t1) 0 ((bytes c s).take pos))
      pos n hpos (by rw [length_writeAt]; omega) hpre
    refine ⟨(({ t1 with size := s.size + n } : impl).store (data c t1)
        ((bytes c s).take pos)).store ((data c t1).plus (pos + n))
        (((bytes c s).drop pos).take (s.size + 1 - pos)), destroy c s sp1,
      ?_, ?_, ?_, ?_, ?_, ?_, ?_, ?_⟩
    · simp [data, in_sbo]
    · simp
    · simp only [Bounds, store_capacity, store_size]
      have := hBt.2; simp only at this; omega
    · exact Sized_store c _ _ _ (Sized_store c _ _ _ (Sized_size c _ _ hSt))
    · exact (congrArg (List.take pos) hb2).trans k1
    · exact ⟨_, (congrArg (List.drop (pos + n)) hb2).trans k2⟩
    · intro _
      simpa only [Mode, store_on_heap, store_capacity] using hMt
    · unfold destroy storage.deallocate
      split <;> simp [hfl]

/-! ## What a successful call tells -/

theorem construct_size_ok_imp (c : Config) (hc : c.ok) (t : impl) (g : Nat) (sp : storage)
    (d : Ptr) (h : (construct_size c t g sp).ret = .ok d) :
    g ≤ c.max_size_ ∧ (g < c.buf_size ∨ sp.fail sp.calls = false) := by
  obtain ⟨h0, h1, h2⟩ := hc
  unfold construct_size at h
  by_cases hlt : g < c.buf_size
  · exact ⟨by omega, Or.inl hlt⟩
  · rw [if_neg hlt] at h
    cases hg : growth c g c.inline_capacity with
    | error e1 => rw [hg] at h; simp at h
    | ok g1 =>
      have hle : g ≤ c.max_size_ := by
        by_contra hgt
        have := (growth_error_iff c g c.inline_capacity .length_error).mpr
          ⟨rfl, by omega⟩
        rw [hg] at this; cases this
      refine ⟨hle, Or.inr ?_⟩
      rw [hg] at h
      simp only [storage.allocate] at h
      by_contra hf
      have hf1 : sp.fail sp.calls = true := by simpa using hf
      rw [if_pos hf1] at h
      simp at h

theorem append_ok_imp (c : Config) (hc : c.ok) (tmp s : impl) (hB : Bounds c s) (n : Nat)
    (sp : storage) (d : Ptr) (h : (append c tmp s n sp).ret = .ok d) :
    n ≤ c.max_size_ - s.size ∧
      (n ≤ s.capacity - s.size ∨ ∀ g, growth c (s.size + n) s.capacity = .ok g →
        (g < c.buf_size ∨ sp.fail sp.calls = false)) := by
  have hn : n ≤ c.max_size_ - s.size := by
    by_contra hgt
    have := (append_length_error_iff c hc tmp s hB n sp).mpr (by omega)
    rw [this] at h; cases h
  refine ⟨hn, ?_⟩
  obtain ⟨hsz, hcap⟩ := hB
  have hok := hc
  obtain ⟨h0, h1, h2⟩ := hc
  have hs1 : c.sub c.max_size_ s.size = c.max_size_ - s.size :=
    c.sub_eq (by omega) (by omega)
  have hs2 : c.sub s.capacity s.size = s.capacity - s.size :=
    c.sub_eq hsz (by omega)
  have ha : c.add s.size n = s.size + n := c.add_eq (by omega)
  by_cases hin : n ≤ s.capacity - s.size
  · exact Or.inl hin
  · right
    intro g hg
    unfold append at h
    rw [hs1, hs2, ha, if_neg (by omega), if_neg hin, hg] at h
    simp only [] at h
    cases hr : (construct_size c tmp g sp).ret with
    | error e => rw [hr] at h; simp at h
    | ok d1 => exact (construct_size_ok_imp c hok tmp g sp d1 hr).2

theorem insert_ok_imp (c : Config) (hc : c.ok) (tmp s : impl) (hB : Bounds c s)
    (pos n : Nat) (sp : storage) (d : Ptr) (h : (insert c tmp s pos n sp).ret = .ok d) :
    pos ≤ s.size ∧ n ≤ c.max_size_ - s.size ∧
      (n ≤ s.capacity - s.size ∨ ∀ g, growth c (s.size + n) s.capacity = .ok g →
        (g < c.buf_size ∨ sp.fail sp.calls = false)) := by
  obtain ⟨hsz, hcap⟩ := hB
  have hok := hc
  obtain ⟨h0, h1, h2⟩ := hc
  have hs1 : c.sub c.max_size_ s.size = c.max_size_ - s.size :=
    c.sub_eq (by omega) (by omega)
  have hs2 : c.sub s.capacity s.size = s.capacity - s.size :=
    c.sub_eq hsz (by omega)
  unfold insert at h
  by_cases hp : pos > s.size
  · rw [if_pos hp] at h; simp at h
  · rw [if_neg hp, hs2, hs1] at h
    refine ⟨by omega, ?_⟩
    by_cases hin : n ≤ s.capacity - s.size
    · exact ⟨by omega, Or.inl hin⟩
    · rw [if_neg hin] at h
      by_cases hgt : n > c.max_size_ - s.size
      · rw [if_pos hgt] at h; simp at h
      · rw [if_neg hgt] at h
        refine ⟨by omega, Or.inr ?_⟩
        intro g hg
        have ha : c.add s.size n = s.size + n := c.add_eq (by omega)
        rw [ha, hg] at h
        simp only [] at h
        cases hr : (construct_size c tmp g sp).ret with
        | error e => rw [hr] at h; simp at h
        | ok d1 => exact (construct_size_ok_imp c hok tmp g sp d1 hr).2

/-- The successful `append(n)`: the call succeeds when `n <= max_size_ - size` and the
allocation succeeds, and whenever it succeeds the result is as described. -/
theorem append_spec (c : Config) (hc : c.ok) (tmp s : impl)
    (htmp : tmp.buf.length = c.buf_size) (hB : Bounds c s) (hS : Sized c s) (n : Nat)
    (sp : storage)
    (h : (∃ d, (append c tmp s n sp).ret = .ok d) ∨
      (n ≤ c.max_size_ - s.size ∧ sp.fail sp.calls = false)) :
    ∃ t sp1, append c tmp s n sp = ⟨t, sp1, .ok ((data c t).plus s.size)⟩ ∧
      t.size = s.size + n ∧ Bounds c t ∧ Sized c t ∧ TermInv c t ∧
      (bytes c t).take s.size = content c s ∧ (Mode c s → Mode c t) ∧
      sp1.fail = sp.fail := by
  rcases h with ⟨d, hd⟩ | ⟨hn, hf⟩
  · obtain ⟨hn, hf⟩ := append_ok_imp c hc tmp s hB n sp d hd
    exact append_spec_aux c hc tmp s htmp hB hS n hn sp hf
  · exact append_spec_aux c hc tmp s htmp hB hS n hn sp (Or.inr (fun _ _ => Or.inr hf))

/-- The successful `insert(pos, n)`: the call succeeds when `pos <= size`,
`n <= max_size_ - size` and the allocation succeeds, and whenever it succeeds the result is
as described. -/
theorem insert_spec (c : Config) (hc : c.ok) (tmp s : impl)
    (htmp : tmp.buf.length = c.buf_size) (hB : Bounds c s) (hS : Sized c s)
    (hT : TermInv c s) (pos n : Nat) (sp : storage)
    (h : (∃ d, (insert c tmp s pos n sp).ret = .ok d) ∨
      (pos ≤ s.size ∧ n ≤ c.max_size_ - s.size ∧ sp.fail sp.calls = false)) :
    ∃ t sp1, insert c tmp s pos n sp = ⟨t, sp1, .ok ((data c t).plus pos)⟩ ∧
      t.size = s.size + n ∧ Bounds c t ∧ Sized c t ∧
      (bytes c t).take pos = (content c s).take pos ∧
      (∃ R, (bytes c t).drop (pos + n) = (content c s).drop pos ++ 0 :: R) ∧
      (Mode c s → Mode c t) ∧ sp1.fail = sp.fail := by
  rcases h with ⟨d, hd⟩ | ⟨hpos, hn, hf⟩
  · obtain ⟨hpos, hn, hf⟩ := insert_ok_imp c hc tmp s hB pos n sp d hd
    exact insert_spec_aux c hc tmp s htmp hB hS hT pos n hpos hn sp hf
  · exact insert_spec_aux c hc tmp s htmp hB hS hT pos n hpos hn sp
      (Or.inr (fun _ _ => Or.inr hf))

/-! ## `assign`, `unalloc`, `construct()` -/

theorem assign_spec_aux (c : Config) (hc : c.ok) (tmp s : impl)
    (htmp : tmp.buf.length = c.buf_size) (hB : Bounds c s) (hS : Sized c s) (n : Nat)
    (hn : n ≤ c.max_size_) (sp : storage)
    (hf : n ≤ s.capacity ∨ ∀ g, growth c n s.capacity = .ok g →
      (g < c.buf_size ∨ sp.fail sp.calls = false)) :
    ∃ t sp1, assign c tmp s n sp = ⟨t, sp1, .ok (data c t)⟩ ∧
      t.size = n ∧ Bounds c t ∧ Sized c t ∧ TermInv c t ∧ (Mode c s → Mode c t) ∧
      sp1.fail = sp.fail := by
  obtain ⟨hsz, hcap⟩ := hB
  unfold assign
  by_cases hgt : n > s.capacity
  · rw [if_pos hgt]
    obtain ⟨g, hg, hle, hmax⟩ := growth_ok c n s.capacity hn hcap
    obtain ⟨hret, hgc, hBt, hMt, hSt, -, hfl⟩ :=
      construct_size_spec c hc tmp htmp g hmax sp (hf.resolve_left (by omega) g hg)
    simp only [hg, hret]
    generalize (construct_size c tmp g sp).self = t1 at *
    generalize (construct_size c tmp g sp).sp = sp1 at *
    obtain ⟨hT, -⟩ := term_spec c hc t1 hSt n (by omega)
    refine ⟨term c t1 n, destroy c s sp1, rfl, term_size _ _ _, ?_, term_Sized _ _ _ hSt,
      hT, ?_, ?_⟩
    · simp only [Bounds, term_size, term_capacity]
      have := hBt.2; simp only at this; omega
    · intro _
      simpa only [Mode, term_on_heap, term_capacity] using hMt
    · unfold destroy storage.deallocate
      split <;> simp [hfl]
  · rw [if_neg hgt]
    obtain ⟨hT, -⟩ := term_spec c hc s hS n (by omega)
    refine ⟨term c s n, sp, rfl, term_size _ _ _, ?_, term_Sized _ _ _ hS, hT, ?_, rfl⟩
    · simp only [Bounds, term_size, term_capacity]; omega
    · simp only [Mode, term_on_heap, term_capacity]; exact id

theorem assign_ok_imp (c : Config) (hc : c.ok) (tmp s : impl) (hB : Bounds c s) (n : Nat)
    (sp : storage) (d : Ptr) (h : (assign c tmp s n sp).ret = .ok d) :
    n ≤ c.max_size_ ∧ (n ≤ s.capacity ∨ ∀ g, growth c n s.capacity = .ok g →
      (g < c.buf_size ∨ sp.fail sp.calls = false)) := by
  obtain ⟨hsz, hcap⟩ := hB
  by_cases hgt : n > s.capacity
  · unfold assign at h
    rw [if_pos hgt] at h
    have hle : n ≤ c.max_size_ := by
      by_contra hn
      have := (growth_error_iff c n s.capacity .length_error).mpr ⟨rfl, by omega⟩
      rw [this] at h; simp at h
    refine ⟨hle, Or.inr ?_⟩
    intro g hg
    rw [hg] at h
    simp only [] at h
    cases hr : (construct_size c tmp g sp).ret with
    | error e => rw [hr] at h; simp at h
    | ok d1 => exact (construct_size_ok_imp c hc tmp g sp d1 hr).2
  · exact ⟨by omega, Or.inl (by omega)⟩

/-- The successful `assign(n)`: the call succeeds when `n <= max_size_` and the allocation
succeeds, and whenever it succeeds the result is as described. -/
theorem assign_spec (c : Config) (hc : c.ok) (tmp s : impl)
    (htmp : tmp.buf.length = c.buf_size) (hB : Bounds c s) (hS : Sized c s) (n : Nat)
    (sp : storage)
    (h : (∃ d, (assign c tmp s n sp).ret = .ok d) ∨
      (n ≤ c.max_size_ ∧ sp.fail sp.calls = false)) :
    ∃ t sp1, assign c tmp s n sp = ⟨t, sp1, .ok (data c t)⟩ ∧
      t.size = n ∧ Bounds c t ∧ Sized c t ∧ TermInv c t ∧ (Mode c s → Mode c t) ∧
      sp1.fail = sp.fail := by
  rcases h with ⟨d, hd⟩ | ⟨hn, hf⟩
  · obtain ⟨hn, hf⟩ := assign_ok_imp c hc tmp s hB n sp d hd
    exact assign_spec_aux c hc tmp s htmp hB hS n hn sp hf
  · exact assign_spec_aux c hc tmp s htmp hB hS n hn sp (Or.inr (fun _ _ => Or.inr hf))

/-- The effect of `unalloc` under its first assertion `size < sizeof(buf)`. -/
theorem unalloc_spec (c : Config) (hc : c.ok) (s : impl) (hS : Sized c s)
    (hT : TermInv c s) (hlt : s.size < c.buf_size) (sp : storage) :
    (unalloc c s sp).1.size = s.size ∧ (unalloc c s sp).1.capacity = c.inline_capacity ∧
      (unalloc c s sp).1.on_heap = false ∧ Bounds c (unalloc c s sp).1 ∧
      Mode c (unalloc c s sp).1 ∧ Sized c (unalloc c s sp).1 ∧
      TermInv c (unalloc c s sp).1 ∧ content c (unalloc c s sp).1 = content c s ∧
      (unalloc c s sp).2 = sp.deallocate s.p.addr (c.add s.capacity 1) := by
  obtain ⟨h0, h1, h2⟩ := hc
  obtain ⟨hM, hC, hl⟩ := bytes_split c s hT
  have ha : c.add s.size 1 = s.size + 1 := c.add_eq (by omega)
  have hld : s.load (data c s) (s.size + 1) = content c s ++ [0] := by
    rw [load_data_zero]
    conv_lhs => rw [hM]
    rw [List.take_append_eq_append_take, hC]
    simp [content]
  have hb : bytes c (unalloc c s sp).1 = writeAt s.buf 0 (content c s ++ [0]) := by
    unfold unalloc
    simp only [ha, hld]
    simp [bytes, data, in_sbo, impl.mem, impl.store]
  have hw : writeAt s.buf 0 (content c s ++ [0])
      = content c s ++ 0 :: s.buf.drop (s.size + 1) := by
    rw [writeAt_eq _ _ _ (by simp [hC, hS.1]; omega)]
    simp [hC]
  refine ⟨by simp [unalloc], by simp [unalloc], by simp [unalloc], ?_, ?_, ?_, ?_, ?_, ?_⟩
  · simp [unalloc, Bounds, Config.inline_capacity]; omega
  · simp [unalloc, Mode]
  · simp [unalloc, Sized, in_sbo, hS.1]
  · unfold TermInv
    rw [hb, hw]
    have : (unalloc c s sp).1.size = (content c s).length := by simp [unalloc, hC]
    rw [this, List.getElem?_append_right (le_refl _)]
    simp
  · unfold content at *
    rw [hb, hw]
    have : (unalloc c s sp).1.size = (List.take s.size (bytes c s)).length := by
      simp [unalloc]; omega
    rw [this]
    exact List.take_left' rfl
  · rfl

/-- The empty string set up by `construct()`. -/
theorem construct_spec (c : Config) (hc : c.ok) (s : impl)
    (hs : s.buf.length = c.buf_size) :
    (construct c s).size = 0 ∧ (construct c s).capacity = c.inline_capacity ∧
      (construct c s).on_heap = false ∧ Bounds c (construct c s) ∧
      Mode c (construct c s) ∧ Sized c (construct c s) ∧ TermInv c (construct c s) := by
  obtain ⟨h0, h1, h2⟩ := hc
  refine ⟨rfl, rfl, rfl, ?_, ?_, ?_, ?_⟩
  · simp [construct, Bounds, Config.inline_capacity]; omega
  · simp [construct, Mode]
  · simp [construct, Sized, in_sbo, hs]
  · simp [construct, TermInv, bytes, data, in_sbo, impl.mem]
    rw [List.getElem?_eq_getElem (by simp; omega)]
    simp

/-! ## The known-length construct -/

/-- Writing a terminator at index `size` of a well-sized object. -/
theorem store_terminator (c : Config) (hc : c.ok) (t : impl) (hS : Sized c t)
    (hB : t.size ≤ t.capacity) :
    TermInv c (t.store ((data c t).plus t.size) [0]) ∧
      content c (t.store ((data c t).plus t.size) [0]) = content c t := by
  have hl := bytes_length c hc t hS
  obtain ⟨h1, h2⟩ := set_terminator (bytes c t) t.size (by omega)
  unfold TermInv content
  rw [bytes_store, store_size]
  exact ⟨h1, h2 _ (le_refl _)⟩

/-- The successful known-length construct: it succeeds when `|B| <= max_size_` and the
allocation succeeds, and whenever it succeeds on a sequence whose length is a `size_type`
value the result holds exactly `B`. -/
theorem construct_forward_spec (c : Config) (hc : c.ok) (s : impl)
    (hs : s.buf.length = c.buf_size) (B : List Nat) (sp : storage)
    (h : ((∃ u, (construct_forward c s B sp).ret = .ok u) ∧ B.length < 2 ^ c.bits) ∨
      (B.length ≤ c.max_size_ ∧ sp.fail sp.calls = false)) :
    ∃ t sp1, construct_forward c s B sp = ⟨t, sp1, .ok ()⟩ ∧
      t.size = B.length ∧ Bounds c t ∧ Mode c t ∧ Sized c t ∧ TermInv c t ∧
      content c t = B ∧ sp1.fail = sp.fail := by
  have hw : c.wrap B.length = B.length := by
    rcases h with ⟨-, h⟩ | ⟨h, -⟩
    · exact c.wrap_eq h
    · exact c.wrap_eq (by have := hc.2.2; omega)
  have hcs : B.length ≤ c.max_size_ ∧ (B.length < c.buf_size ∨ sp.fail sp.calls = false) := by
    rcases h with ⟨⟨u, hu⟩, -⟩ | ⟨h1, h2⟩
    · unfold construct_forward at hu
      rw [hw] at hu
      simp only [] at hu
      cases hr : (construct_size c s B.length sp).ret with
      | error e => rw [hr] at hu; simp at hu
      | ok d1 => exact construct_size_ok_imp c hc s B.length sp d1 hr
    · exact ⟨h1, Or.inr h2⟩
  obtain ⟨hret, hgc, hBt, hMt, hSt, -, hfl⟩ :=
    construct_size_spec c hc s hs B.length hcs.1 sp hcs.2
  unfold construct_forward
  simp only [hw, hret]
  generalize (construct_size c s B.length sp).self = t1 at *
  generalize (construct_size c s B.length sp).sp = sp1 at *
  have hl1 := bytes_length c hc t1 hSt
  have hb1 : bytes c (t1.store (data c t1) B) = writeAt (bytes c t1) 0 B :=
    bytes_store c t1 0 B
  have hb2 : bytes c ((t1.store (data c t1) B).store ((data c t1).plus B.length) [0])
      = writeAt (writeAt (bytes c t1) 0 B) B.length [0] := by
    have h2 := bytes_store c (t1.store (data c t1) B) B.length [0]
    rw [data_store, hb1] at h2
    exact h2
  obtain ⟨k1, k2⟩ := set_terminator (writeAt (bytes c t1) 0 B) B.length
    (by rw [length_writeAt]; omega)
  have k3 := take_writeAt_zero (bytes c t1) B (by omega)
  refine ⟨{ (t1.store (data c t1) B).store ((data c t1).plus B.length) [0] with
      size := B.length }, sp1, rfl, rfl, ?_, ?_, ?_, ?_, ?_, hfl⟩
  · simpa [Bounds] using hBt
  · simpa [Mode] using hMt
  · exact Sized_size c _ _ (Sized_store c _ _ _ (Sized_store c _ _ _ hSt))
  · unfold TermInv
    rw [bytes_size, hb2]
    exact k1
  · unfold content
    rw [bytes_size, hb2]
    exact (k2 _ (le_refl _)).trans k3

/-! ## The single-pass construct -/

/-- Writing the last content byte of a well-sized object. -/
theorem content_push (c : Config) (hc : c.ok) (t : impl) (k b : Nat) (hS : Sized c t)
    (hsz : t.size = k + 1) (hB : t.size ≤ t.capacity) :
    content c (t.store ((data c t).plus k) [b]) = (bytes c t).take k ++ [b] := by
  have hl := bytes_length c hc t hS
  unfold content
  rw [bytes_store, store_size, hsz, writeAt_eq _ _ _ (by simp; omega)]
  have hk : ((bytes c t).take k ++ [b]).length = k + 1 := by simp; omega
  rw [← hk]
  exact List.take_left' rfl

/-- The loop of the single-pass construct: it runs to its end when the total length stays
within `max_size_` and no allocation fails, and whenever it runs to its end the content
has grown by the remaining elements. -/
theorem loop_spec (c : Config) (hc : c.ok) (tmp : Nat → impl)
    (htmp : ∀ k, (tmp k).buf.length = c.buf_size) (rest : List Nat) :
    ∀ (s : impl) (sp : storage), Bounds c s → Sized c s →
      ((∃ d, (construct_input_loop c tmp s sp ((data c s).plus s.size) rest).ret = .ok d) ∨
        (s.size + rest.length ≤ c.max_size_ ∧ sp.succeeds)) →
      ∃ t sp1, construct_input_loop c tmp s sp ((data c s).plus s.size) rest
          = ⟨t, sp1, .ok ((data c t).plus t.size)⟩ ∧
        t.size = s.size + rest.length ∧ Bounds c t ∧ Sized c t ∧
        content c t = content c s ++ rest ∧ (Mode c s → Mode c t) ∧
        sp1.fail = sp.fail := by
  induction rest with
  | nil =>
    intro s sp hB hS _
    exact ⟨s, sp, rfl, rfl, hB, hS, by simp, id, rfl⟩
  | cons b rest ih =>
    intro s sp hB hS h
    have h2 := hc.2.2
    by_cases hlt : s.size < s.capacity
    · have ha : c.add s.size 1 = s.size + 1 := c.add_eq (by have := hB.2; omega)
      have hstep : construct_input_loop c tmp s sp ((data c s).plus s.size) (b :: rest)
          = construct_input_loop c tmp
              (({ s with size := s.size + 1 } : impl).store ((data c s).plus s.size) [b]) sp
              ((data c (({ s with size := s.size + 1 } : impl).store
                ((data c s).plus s.size) [b])).plus
                (({ s with size := s.size + 1 } : impl).store
                  ((data c s).plus s.size) [b]).size) rest := by
        rw [construct_input_loop, if_pos hlt, ha, plus_plus, data_store, store_size]
        rfl
      rw [hstep] at h ⊢
      have hS1 : Sized c (({ s with size := s.size + 1 } : impl).store
          ((data c s).plus s.size) [b]) :=
        Sized_store c _ _ _ (Sized_size c s _ hS)
      have hB1 : Bounds c (({ s with size := s.size + 1 } : impl).store
          ((data c s).plus s.size) [b]) := by
        simp only [Bounds, store_size, store_capacity]
        exact ⟨hlt, hB.2⟩
      have hc1 : content c (({ s with size := s.size + 1 } : impl).store
          ((data c s).plus s.size) [b]) = content c s ++ [b] :=
        content_push c hc { s with size := s.size + 1 } s.size b (Sized_size c s _ hS) rfl hlt
      obtain ⟨t, sp1, he, hsz, hBt, hSt, hct, hMt, hfl⟩ := ih _ sp hB1 hS1 (by
        rcases h with h | ⟨h, hs⟩
        · exact Or.inl h
        · right
          simp only [store_size, List.length_cons] at h ⊢
          exact ⟨by omega, hs⟩)
      refine ⟨t, sp1, he, ?_, hBt, hSt, ?_, ?_, hfl⟩
      · simp only [store_size, List.length_cons] at hsz ⊢; omega
      · rw [hct, hc1]; simp
      · intro hM
        apply hMt
        simpa only [Mode, store_on_heap, store_capacity] using hM
    · have happ : (∃ d, (append c (tmp (rest.length + 1)) s 1 sp).ret = .ok d) ∨
          (1 ≤ c.max_size_ - s.size ∧ sp.fail sp.calls = false) := by
        rcases h with ⟨d, hd⟩ | ⟨h, hs⟩
        · left
          rw [construct_input_loop, if_neg hlt] at hd
          simp only [] at hd
          cases hr : (append c (tmp (rest.length + 1)) s 1 sp).ret with
          | error e => rw [hr] at hd; simp at hd
          | ok d1 => exact ⟨d1, rfl⟩
        · right
          simp only [List.length_cons] at h
          exact ⟨by omega, hs _⟩
      obtain ⟨t0, sp0, he0, hsz0, hB0, hS0, -, hpre0, hM0, hfl0⟩ :=
        append_spec c hc (tmp (rest.length + 1)) s (htmp _) hB hS 1 sp happ
      have hstep : construct_input_loop c tmp s sp ((data c s).plus s.size) (b :: rest)
          = construct_input_loop c tmp (t0.store ((data c t0).plus s.size) [b]) sp0
              ((data c (t0.store ((data c t0).plus s.size) [b])).plus
                (t0.store ((data c t0).plus s.size) [b]).size) rest := by
        rw [construct_input_loop, if_neg hlt, he0]
        simp only []
        rw [plus_plus, data_store, store_size, hsz0]
      rw [hstep] at h ⊢
      have hc1 : content c (t0.store ((data c t0).plus s.size) [b]) = content c s ++ [b] := by
        rw [content_push c hc t0 s.size b hS0 hsz0 hB0.1, hpre0]
      obtain ⟨t, sp1, he, hsz, hBt, hSt, hct, hMt, hfl⟩ :=
        ih (t0.store ((data c t0).plus s.size) [b]) sp0
          (by simpa only [Bounds, store_size, store_capacity] using hB0)
          (Sized_store c _ _ _ hS0) (by
            rcases h with h | ⟨h, hs⟩
            · exact Or.inl h
            · right
              simp only [store_size, List.length_cons, hsz0] at h ⊢
              refine ⟨by omega, fun k => ?_⟩
              rw [hfl0]; exact hs k)
      refine ⟨t, sp1, he, ?_, hBt, hSt, ?_, ?_, hfl.trans hfl0⟩
      · simp only [store_size, List.length_cons, hsz0] at hsz ⊢; omega
      · rw [hct, hc1]; simp
      · intro hM
        apply hMt
        simpa only [Mode, store_on_heap, store_capacity] using hM0 hM

/-- The successful single-pass construct on a non-empty sequence: it succeeds when the
length is within `max_size_` and no allocation fails, and whenever it succeeds the result
holds exactly the sequence. -/
theorem construct_input_spec (c : Config) (hc : c.ok) (tmp : Nat → impl)
    (htmp : ∀ k, (tmp k).buf.length = c.buf_size) (s : impl)
    (hs : s.buf.length = c.buf_size) (b : Nat) (rest : List Nat) (sp : storage)
    (h : (∃ r u, construct_input c tmp s (b :: rest) sp = some r ∧ r.ret = .ok u) ∨
      (rest.length + 1 ≤ c.max_size_ ∧ sp.succeeds)) :
    ∃ t sp1, construct_input c tmp s (b :: rest) sp = some ⟨t, sp1, .ok ()⟩ ∧
      t.size = rest.length + 1 ∧ Bounds c t ∧ Mode c t ∧ Sized c t ∧ TermInv c t ∧
      content c t = b :: rest ∧ sp1.fail = sp.fail := by
  have h1max : 1 ≤ c.max_size_ := by have := hc.2.1; omega
  have hcs : 1 < c.buf_size ∨ sp.fail sp.calls = false := by
    rcases h with ⟨r, u, hr, hu⟩ | ⟨-, hsuc⟩
    · rw [construct_input] at hr
      simp only [] at hr
      cases hr1 : (construct_size c s 1 sp).ret with
      | error e => rw [hr1] at hr; simp at hr; rw [← hr] at hu; simp at hu
      | ok d1 => exact (construct_size_ok_imp c hc s 1 sp d1 hr1).2
    · exact Or.inr (hsuc _)
  obtain ⟨hret, hgc, hBt, hMt, hSt, -, hfl⟩ :=
    construct_size_spec c hc s hs 1 h1max sp hcs
  rw [construct_input] at h ⊢
  simp only [hret] at h ⊢
  generalize (construct_size c s 1 sp).self = t1 at *
  generalize (construct_size c s 1 sp).sp = sp1 at *
  have hS2 : Sized c (({ t1 with size := 1 } : impl).store (data c t1) [b]) :=
    Sized_store c _ _ _ (Sized_size c t1 _ hSt)
  have hB2 : Bounds c (({ t1 with size := 1 } : impl).store (data c t1) [b]) := by
    simpa [Bounds] using hBt
  have hc2 : content c (({ t1 with size := 1 } : impl).store (data c t1) [b]) = [b] := by
    have := content_push c hc { t1 with size := 1 } 0 b (Sized_size c t1 _ hSt) rfl
      (by simpa [Bounds] using hBt.1)
    simpa using this
  have hd : (data c t1).plus 1
      = (data c (({ t1 with size := 1 } : impl).store (data c t1) [b])).plus
          (({ t1 with size := 1 } : impl).store (data c t1) [b]).size := by
    rw [data_store, store_size]; rfl
  rw [hd] at h ⊢
  obtain ⟨t, sp2, he, hsz, hB3, hS3, hct, hM3, hfl3⟩ :=
    loop_spec c hc tmp htmp rest _ sp1 hB2 hS2 (by
      rcases h with ⟨r, u, hr, hu⟩ | ⟨hlen, hsuc⟩
      · left
        cases hl : (construct_input_loop c tmp
            (({ t1 with size := 1 } : impl).store (data c t1) [b]) sp1
            ((data c (({ t1 with size := 1 } : impl).store (data c t1) [b])).plus
              (({ t1 with size := 1 } : impl).store (data c t1) [b]).size) rest).ret with
        | error e => rw [hl] at hr; simp at hr; rw [← hr] at hu; simp at hu
        | ok d1 => exact ⟨d1, rfl⟩
      · right
        simp only [store_size]
        refine ⟨by omega, fun k => ?_⟩
        rw [hfl]; exact hsuc k)
  rw [he]
  obtain ⟨k1, k2⟩ := store_terminator c hc t hS3 hB3.1
  refine ⟨t.store ((data c t).plus t.size) [0], sp2, rfl, ?_, ?_, ?_, ?_, k1, ?_,
    hfl3.trans hfl⟩
  · simp only [store_size] at hsz ⊢; omega
  · simpa only [Bounds, store_size, store_capacity] using hB3
  · have : Mode c t := hM3 (by simpa only [Mode, store_on_heap, store_capacity] using hMt)
    simpa only [Mode, store_on_heap, store_capacity] using this
  · exact Sized_store c _ _ _ hS3
  · rw [k2, hct, hc2]; rfl

/-- Filling the gap opened by `insert(pos, |B|)` with `B`. -/
theorem insert_fill_spec (c : Config) (hc : c.ok) (tmp s : impl)
    (htmp : tmp.buf.length = c.buf_size) (hI : Inv c s) (pos : Nat) (hpos : pos ≤ s.size)
    (B : List Nat) (hB : B.length ≤ c.max_size_ - s.size) (sp : storage)
    (hf : sp.fail sp.calls = false) :
    ∃ t sp1, insert_fill c tmp s pos B sp = ⟨t, sp1, .ok ((data c t).plus pos)⟩ ∧
      t.size = s.size + B.length ∧ Inv c t ∧
      content c t = (content c s).take pos ++ B ++ (content c s).drop pos ∧
      sp1.fail = sp.fail := by
  obtain ⟨⟨hBd, hM⟩, hS, hT⟩ := hI
  have hw : c.wrap B.length = B.length := c.wrap_eq (by
    have := hc.2.2; omega)
  obtain ⟨t, sp1, he, hsz, hBt, hSt, k1, ⟨R, k2⟩, hMt, hfl⟩ :=
    insert_spec_aux c hc tmp s htmp hBd hS hT pos B.length hpos hB sp
      (Or.inr (fun _ _ => Or.inr hf))
  have hl := bytes_length c hc t hSt
  have hcs : (content c s).length = s.size := (bytes_split c s hT).2.1
  have hb : bytes c (t.store ((data c t).plus pos) B)
      = (content c s).take pos ++ B ++ (content c s).drop pos ++ 0 :: R := by
    rw [bytes_store, writeAt_eq _ _ _ (by have := hBt.1; omega), k1, k2]
    simp
  have hlen : ((content c s).take pos ++ B ++ (content c s).drop pos).length
      = s.size + B.length := by
    simp; omega
  refine ⟨t.store ((data c t).plus pos) B, sp1, ?_, by simpa using hsz, ⟨⟨?_, ?_⟩, ?_, ?_⟩,
    ?_, hfl⟩
  · unfold insert_fill
    rw [hw, he]
    simp
  · simpa [Bounds] using hBt
  · simpa [Mode] using hMt hM
  · exact Sized_store c _ _ _ hSt
  · unfold TermInv
    rw [hb, store_size, hsz, ← hlen, List.getElem?_append_right (le_refl _)]
    simp
  · unfold content
    rw [hb, store_size, hsz, ← hlen]
    exact List.take_left' rfl

/-- C1 (insert correctness): on a buffer satisfying the data-model invariants with
content `C`, for `pos <= |C|` and `|B| <= max_size_ - |C|` (the allocation, if any,
succeeding), opening a gap with `impl::insert(pos, |B|)` and filling the returned region
with `B`, as `string::insert` does, succeeds, returns `data() + pos`, and yields the
content `C[0:pos] ++ B ++ C[pos:]`, the length `|C| + |B|` and a 0 byte at index
`|C| + |B|`; in place and with reallocation alike. -/
theorem insert_correct (c : Config) (hc : c.ok) (tmp s : impl)
    (htmp : tmp.buf.length = c.buf_size) (hI : Inv c s) (pos : Nat) (hpos : pos ≤ s.size)
    (B : List Nat) (hB : B.length ≤ c.max_size_ - s.size) (sp : storage)
    (hf : sp.fail sp.calls = false) :
    (insert_fill c tmp s pos B sp).ret
        = .ok ((data c (insert_fill c tmp s pos B sp).self).plus pos) ∧
      content c (insert_fill c tmp s pos B sp).self
        = (content c s).take pos ++ B ++ (content c s).drop pos ∧
      (insert_fill c tmp s pos B sp).self.size = s.size + B.length ∧
      (bytes c (insert_fill c tmp s pos B sp).self)[s.size + B.length]? = some 0 := by
  obtain ⟨t, sp1, he, hsz, hIt, hct, -⟩ :=
    insert_fill_spec c hc tmp s htmp hI pos hpos B hB sp hf
  rw [he]
  refine ⟨rfl, hct, hsz, ?_⟩
  have := hIt.2.2
  unfold TermInv at this
  rw [hsz] at this
  exact this

theorem insert_correct_witness :
    (cfg8.ok ∧ junk_impl.buf.length = cfg8.buf_size ∧ Inv cfg8 abc) ∧
      content cfg8 (insert_fill cfg8 junk_impl abc 1 (List.replicate 30 7) mem_ok).self
        = 1 :: List.replicate 30 7 ++ [2, 3] :=
  ⟨by decide,
   (insert_correct cfg8 (by decide) junk_impl abc (by decide) (by decide) 1 (by decide)
      (List.replicate 30 7) (by decide) mem_ok (by decide)).2.1.trans (by decide)⟩

/-- C2 (append contract): on a buffer satisfying the data-model invariants with content
`C`, `impl::append(n)` throws `length_error` exactly when `n > max_size_ - |C|`;
otherwise, the allocation (if any) succeeding, it returns `data() + |C|`, the new length
is `|C| + n`, bytes `[0, |C|)` still equal `C`, the byte at index `|C| + n` is 0 (so the
region of `n` bytes lies within the storage); and when `n <= capacity - |C|` the capacity,
the storage mode and the memory resource are unchanged. -/
theorem append_contract (c : Config) (hc : c.ok) (tmp s : impl)
    (htmp : tmp.buf.length = c.buf_size) (hI : Inv c s) (n : Nat) (sp : storage) :
    ((append c tmp s n sp).ret = .error .length_error ↔ c.max_size_ - s.size < n) ∧
    (n ≤ c.max_size_ - s.size → sp.fail sp.calls = false →
      (append c tmp s n sp).ret
          = .ok ((data c (append c tmp s n sp).self).plus s.size) ∧
        (append c tmp s n sp).self.size = s.size + n ∧
        (bytes c (append c tmp s n sp).self).take s.size = content c s ∧
        (bytes c (append c tmp s n sp).self)[s.size + n]? = some 0 ∧
        s.size + n < (bytes c (append c tmp s n sp).self).length) ∧
    (n ≤ s.capacity - s.size →
      (append c tmp s n sp).self.capacity = s.capacity ∧
        (append c tmp s n sp).self.on_heap = s.on_heap ∧
        (append c tmp s n sp).sp = sp) := by
  obtain ⟨⟨hBd, hM⟩, hS, hT⟩ := hI
  refine ⟨append_length_error_iff c hc tmp s hBd n sp, ?_, ?_⟩
  · intro hn hf
    obtain ⟨t, sp1, he, hsz, hBt, hSt, hTt, hpre, -, -⟩ :=
      append_spec_aux c hc tmp s htmp hBd hS n hn sp (Or.inr (fun _ _ => Or.inr hf))
    rw [he]
    have h1 : (bytes c t)[s.size + n]? = some 0 := by
      have := hTt; unfold TermInv at this; rw [hsz] at this; exact this
    exact ⟨rfl, hsz, hpre, h1, (split_at_index h1).2⟩
  · intro hin
    obtain ⟨h1, h2⟩ := append_inplace c hc tmp s hBd n hin sp
    rw [h1, h2]
    exact ⟨term_capacity _ _ _, term_on_heap _ _ _, rfl⟩

theorem append_contract_witness :
    (cfg8.ok ∧ junk_impl.buf.length = cfg8.buf_size ∧ Inv cfg8 (construct cfg8 junk_impl)) ∧
      ((append_fill cfg8 junk_impl (construct cfg8 junk_impl) [1, 2, 3, 4, 5] mem_ok).self.size
          = 5 ∧
        (append_fill cfg8 junk_impl (construct cfg8 junk_impl)
          [1, 2, 3, 4, 5] mem_ok).self.on_heap = false) ∧
      ((append_fill cfg8 junk_impl
          (append_fill cfg8 junk_impl (construct cfg8 junk_impl) [1, 2, 3, 4, 5] mem_ok).self
          (List.replicate 100 7) mem_ok).self.size = 105 ∧
        (append_fill cfg8 junk_impl
          (append_fill cfg8 junk_impl (construct cfg8 junk_impl) [1, 2, 3, 4, 5] mem_ok).self
          (List.replicate 100 7) mem_ok).self.on_heap = true ∧
        content cfg8 (append_fill cfg8 junk_impl
          (append_fill cfg8 junk_impl (construct cfg8 junk_impl) [1, 2, 3, 4, 5] mem_ok).self
          (List.replicate 100 7) mem_ok).self = [1, 2, 3, 4, 5] ++ List.replicate 100 7 ∧
        (bytes cfg8 (append_fill cfg8 junk_impl
          (append_fill cfg8 junk_impl (construct cfg8 junk_impl) [1, 2, 3, 4, 5] mem_ok).self
          (List.replicate 100 7) mem_ok).self)[105]? = some 0) ∧
      (append cfg8 junk_impl (construct cfg8 junk_impl) 5 mem_ok).self.size = 5 :=
  ⟨by decide, by decide, by decide,
   ((append_contract cfg8 (by decide) junk_impl (construct cfg8 junk_impl) (by decide)
      (by decide) 5 mem_ok).2.1 (by decide) (by decide)).2.1⟩

/-! ## Exceptions leave the object untouched -/

theorem assign_error_self (c : Config) (tmp s : impl) (n : Nat) (sp : storage) (e : Error)
    (h : (assign c tmp s n sp).ret = .error e) : (assign c tmp s n sp).self = s := by
  unfold assign at h ⊢
  by_cases h1 : n > s.capacity
  · rw [if_pos h1] at h ⊢
    cases hg : growth c n s.capacity with
    | error e1 => rfl
    | ok g =>
      rw [hg] at h
      simp only [] at h ⊢
      cases hr : (construct_size c tmp g sp).ret with
      | error e2 => rfl
      | ok d => rw [hr] at h; simp at h
  · rw [if_neg h1] at h
    simp at h

theorem append_error_self (c : Config) (tmp s : impl) (n : Nat) (sp : storage) (e : Error)
    (h : (append c tmp s n sp).ret = .error e) : (append c tmp s n sp).self = s := by
  unfold append at h ⊢
  by_cases h1 : n > c.sub c.max_size_ s.size
  · rw [if_pos h1]
  · rw [if_neg h1] at h ⊢
    by_cases h2 : n ≤ c.sub s.capacity s.size
    · rw [if_pos h2] at h
      simp at h
    · rw [if_neg h2] at h ⊢
      cases hg : growth c (c.add s.size n) s.capacity with
      | error e1 => rfl
      | ok g =>
        rw [hg] at h
        simp only [] at h ⊢
        cases hr : (construct_size c tmp g sp).ret with
        | error e2 => rfl
        | ok d => rw [hr] at h; simp at h

theorem insert_error_self (c : Config) (tmp s : impl) (pos n : Nat) (sp : storage)
    (e : Error) (h : (insert c tmp s pos n sp).ret = .error e) :
    (insert c tmp s pos n sp).self = s := by
  unfold insert at h ⊢
  by_cases h0 : pos > s.size
  · rw [if_pos h0]
  · rw [if_neg h0] at h ⊢
    by_cases h2 : n ≤ c.sub s.capacity s.size
    · rw [if_pos h2] at h
      simp at h
    · rw [if_neg h2] at h ⊢
      by_cases h1 : n > c.sub c.max_size_ s.size
      · rw [if_pos h1]
      · rw [if_neg h1] at h ⊢
        cases hg : growth c (c.add s.size n) s.capacity with
        | error e1 => rfl
        | ok g =>
          rw [hg] at h
          simp only [] at h ⊢
          cases hr : (construct_size c tmp g sp).ret with
          | error e2 => rfl
          | ok d => rw [hr] at h; simp at h

/-- C3 (strong exception safety): for `impl::assign`, `impl::append` and `impl::insert`,
for every state of the buffer, every argument and every behaviour of the memory resource,
if the call throws (`length_error`, `out_of_range`, or the exception of `allocate`), the
object is exactly what it was before the call: same bytes, length, capacity and storage
mode. -/
theorem strong_exception_safety (c : Config) (tmp s : impl) (sp : storage) (e : Error) :
    (∀ n, (assign c tmp s n sp).ret = .error e → (assign c tmp s n sp).self = s) ∧
    (∀ n, (append c tmp s n sp).ret = .error e → (append c tmp s n sp).self = s) ∧
    (∀ pos n, (insert c tmp s pos n sp).ret = .error e →
      (insert c tmp s pos n sp).self = s) :=
  ⟨fun n h => assign_error_self c tmp s n sp e h,
   fun n h => append_error_self c tmp s n sp e h,
   fun pos n h => insert_error_self c tmp s pos n sp e h⟩

theorem strong_exception_safety_witness :
    ((assign cfg8 junk_impl abc 100 mem_fail).ret = .error .bad_alloc ∧
      (append cfg8 junk_impl abc 100 mem_fail).ret = .error .bad_alloc ∧
      (insert cfg8 junk_impl abc 4 1 mem_ok).ret = .error .out_of_range) ∧
    (assign cfg8 junk_impl abc 100 mem_fail).self = abc ∧
    (append cfg8 junk_impl abc 100 mem_fail).self = abc ∧
    (insert cfg8 junk_impl abc 4 1 mem_ok).self = abc :=
  ⟨by decide,
   (strong_exception_safety cfg8 junk_impl abc mem_fail .bad_alloc).1 100 (by decide),
   (strong_exception_safety cfg8 junk_impl abc mem_fail .bad_alloc).2.1 100 (by decide),
   (strong_exception_safety cfg8 junk_impl abc mem_ok .out_of_range).2.2 4 1 (by decide)⟩

/-! ## Round trip and agreement of the two constructs -/

/-- C5 (round trip of the known-length construct): for every sequence `B` with
`|B| <= max_size_`, the allocation (if any) succeeding, `construct(first, last, sp,
forward_iterator_tag)` succeeds and yields length `|B|`, content exactly `B` and a 0 byte
at index `|B|`. -/
theorem construct_round_trip (c : Config) (hc : c.ok) (s : impl)
    (hs : s.buf.length = c.buf_size) (B : List Nat) (hB : B.length ≤ c.max_size_)
    (sp : storage) (hf : sp.fail sp.calls = false) :
    (construct_forward c s B sp).ret = .ok () ∧
      (construct_forward c s B sp).self.size = B.length ∧
      content c (construct_forward c s B sp).self = B ∧
      (bytes c (construct_forward c s B sp).self)[B.length]? = some 0 := by
  obtain ⟨t, sp1, he, hsz, -, -, -, hT, hct, -⟩ :=
    construct_forward_spec c hc s hs B sp (Or.inr ⟨hB, hf⟩)
  rw [he]
  refine ⟨rfl, hsz, hct, ?_⟩
  unfold TermInv at hT
  rw [hsz] at hT
  exact hT

theorem construct_round_trip_witness :
    (cfg8.ok ∧ junk_impl.buf.length = cfg8.buf_size ∧
      (List.range 20).length ≤ cfg8.max_size_ ∧ mem_ok.fail mem_ok.calls = false) ∧
      content cfg8 (construct_forward cfg8 junk_impl (List.range 20) mem_ok).self
        = List.range 20 ∧
      content cfg8 (construct_forward cfg8 junk_impl [] mem_ok).self = [] :=
  ⟨by decide,
   (construct_round_trip cfg8 (by decide) junk_impl (by decide) (List.range 20) (by decide)
      mem_ok (by decide)).2.2.1,
   (construct_round_trip cfg8 (by decide) junk_impl (by decide) [] (by decide)
      mem_ok (by decide)).2.2.1⟩

/-- C6 (the single-pass construct agrees with the known-length construct): for every
non-empty sequence `B` with `|B| <= max_size_`, no allocation failing, both constructs
succeed, and both yield the length `|B|`, the content `B` and a 0 byte at index `|B|`
(the capacities may differ). -/
theorem single_pass_agrees (c : Config) (hc : c.ok) (tmp : Nat → impl)
    (htmp : ∀ k, (tmp k).buf.length = c.buf_size) (s1 s2 : impl)
    (hs1 : s1.buf.length = c.buf_size) (hs2 : s2.buf.length = c.buf_size) (B : List Nat)
    (hne : B ≠ []) (hB : B.length ≤ c.max_size_) (sp1 sp2 : storage)
    (hf1 : sp1.succeeds) (hf2 : sp2.succeeds) :
    ∃ r, construct_input c tmp s1 B sp1 = some r ∧ r.ret = .ok () ∧
      (construct_forward c s2 B sp2).ret = .ok () ∧
      r.self.size = (construct_forward c s2 B sp2).self.size ∧
      r.self.size = B.length ∧
      content c r.self = content c (construct_forward c s2 B sp2).self ∧
      content c r.self = B ∧
      (bytes c r.self)[B.length]? = some 0 ∧
      (bytes c (construct_forward c s2 B sp2).self)[B.length]? = some 0 := by
  obtain ⟨t2, sp4, he2, k2, -, -, -, hT2, k3, -⟩ :=
    construct_forward_spec c hc s2 hs2 B sp2 (Or.inr ⟨hB, hf2 _⟩)
  have k1 : (construct_forward c s2 B sp2).ret = .ok () := by rw [he2]
  have k4 : (bytes c (construct_forward c s2 B sp2).self)[B.length]? = some 0 := by
    rw [he2]; unfold TermInv at hT2; rw [k2] at hT2; exact hT2
  have k2 : (construct_forward c s2 B sp2).self.size = B.length := by rw [he2]; exact k2
  have k3 : content c (construct_forward c s2 B sp2).self = B := by rw [he2]; exact k3
  cases B with
  | nil => exact absurd rfl hne
  | cons b rest =>
    obtain ⟨t, sp3, he, hsz, -, -, -, hT, hct, -⟩ :=
      construct_input_spec c hc tmp htmp s1 hs1 b rest sp1
        (Or.inr ⟨by simpa using hB, hf1⟩)
    refine ⟨_, he, rfl, k1, ?_, ?_, ?_, hct, ?_, k4⟩
    · rw [k2]; simpa using hsz
    · simpa using hsz
    · rw [k3]; exact hct
    · unfold TermInv at hT
      rw [hsz] at hT
      simpa using hT

theorem single_pass_agrees_witness :
    (cfg8.ok ∧ (∀ k : Nat, ((fun _ => junk_impl) k).buf.length = cfg8.buf_size) ∧
      junk_impl.buf.length = cfg8.buf_size ∧ List.range 50 ≠ [] ∧
      (List.range 50).length ≤ cfg8.max_size_ ∧ mem_ok.succeeds) ∧
    ∃ r, construct_input cfg8 (fun _ => junk_impl) junk_impl (List.range 50) mem_ok = some r ∧
      r.ret = .ok () ∧
      (construct_forward cfg8 junk_impl (List.range 50) mem_ok).ret = .ok () ∧
      r.self.size = (construct_forward cfg8 junk_impl (List.range 50) mem_ok).self.size ∧
      r.self.size = (List.range 50).length ∧
      content cfg8 r.self
        = content cfg8 (construct_forward cfg8 junk_impl (List.range 50) mem_ok).self ∧
      content cfg8 r.self = List.range 50 ∧
      (bytes cfg8 r.self)[(List.range 50).length]? = some 0 ∧
      (bytes cfg8 (construct_forward cfg8 junk_impl (List.range 50) mem_ok).self)[
        (List.range 50).length]? = some 0 :=
  ⟨⟨by decide, fun _ => junk_impl_sized, by decide, by decide, by decide, fun _ => rfl⟩,
   single_pass_agrees cfg8 (by decide) (fun _ => junk_impl) (fun _ => junk_impl_sized)
     junk_impl junk_impl (by decide) (by decide) (List.range 50) (by decide) (by decide) mem_ok mem_ok
     (fun _ => rfl) (fun _ => rfl)⟩

/-! ## Growth policy: bounds and failure -/

/-- C7 (growth bounds): for every `req <= max_size_` and every `cap <= max_size_`,
`growth(req, cap)` returns a value `g` with `req <= g <= max_size_`. -/
theorem growth_bounds (c : Config) (req cap : Nat) (hr : req ≤ c.max_size_)
    (hcap : cap ≤ c.max_size_) :
    ∃ g, growth c req cap = .ok g ∧ req ≤ g ∧ g ≤ c.max_size_ :=
  growth_ok c req cap hr hcap

theorem growth_bounds_witness :
    ((21 : Nat) ≤ cfg8.max_size_ ∧ (19 : Nat) ≤ cfg8.max_size_) ∧
      ∃ g, growth cfg8 21 19 = .ok g ∧ 21 ≤ g ∧ g ≤ cfg8.max_size_ :=
  ⟨by decide, growth_bounds cfg8 21 19 (by decide) (by decide)⟩

/-- C8 (growth failure condition): for every `req` and `cap`, `growth(req, cap)` throws
`length_error` if and only if `req > max_size_`, it throws nothing else, and for
`req <= max_size_` it returns a value whatever `cap` is. -/
theorem growth_failure (c : Config) (req cap : Nat) :
    (growth c req cap = .error .length_error ↔ c.max_size_ < req) ∧
    (∀ e, growth c req cap = .error e → e = .length_error) ∧
    (req ≤ c.max_size_ → ∃ g, growth c req cap = .ok g) := by
  refine ⟨?_, ?_, ?_⟩
  · rw [growth_error_iff]
    exact ⟨fun h => h.2, fun h => ⟨rfl, h⟩⟩
  · intro e he
    exact ((growth_error_iff c req cap e).mp he).1
  · intro hr
    cases hg : growth c req cap with
    | error e =>
      have := ((growth_error_iff c req cap e).mp hg).2
      omega
    | ok g => exact ⟨g, rfl⟩

theorem growth_failure_witness :
    ((7 : Nat) ≤ cfg8.max_size_ ∧ growth cfg8 201 0 = .error .length_error) ∧
      (∃ g, growth cfg8 7 1000 = .ok g) ∧ Error.length_error = Error.length_error :=
  ⟨by decide, (growth_failure cfg8 7 1000).2.2 (by decide),
   (growth_failure cfg8 201 0).2.1 _ (by decide)⟩

/-! ## The representation invariant needs no storage typing -/

/-- What a successful `construct(new_size, sp)` does to capacity and storage mode. -/
theorem construct_size_light (c : Config) (hc : c.ok) (t : impl) (g : Nat) (sp : storage)
    (d : Ptr) (h : (construct_size c t g sp).ret = .ok d) :
    g ≤ (construct_size c t g sp).self.capacity ∧
      (construct_size c t g sp).self.capacity ≤ c.max_size_ ∧
      Mode c (construct_size c t g sp).self ∧
      ((construct_size c t g sp).self.on_heap = true →
        c.inline_capacity < (construct_size c t g sp).self.capacity) := by
  obtain ⟨hg, -⟩ := construct_size_ok_imp c hc t g sp d h
  obtain ⟨h0, h1, h2⟩ := hc
  unfold construct_size at h ⊢
  by_cases hlt : g < c.buf_size
  · simp only [if_pos hlt]
    simp [Mode, Config.inline_capacity]
    omega
  · rw [if_neg hlt] at h
    simp only [if_neg hlt]
    obtain ⟨g1, hg1, hle, hmax⟩ := growth_ok c g c.inline_capacity hg (by
      unfold Config.inline_capacity; omega)
    rw [hg1] at h
    simp only [hg1, storage.allocate] at h ⊢
    by_cases hf : sp.fail sp.calls = true
    · rw [if_pos hf] at h; simp at h
    · simp only [if_neg hf]
      have hne : g1 ≠ c.buf_size - 1 := by omega
      simp [Mode, Config.inline_capacity, hne, hle, hmax]
      omega

theorem assign_rep (c : Config) (hc : c.ok) (tmp s : impl) (hR : RepInv c s) (n : Nat)
    (sp : storage) (d : Ptr) (h : (assign c tmp s n sp).ret = .ok d) :
    RepInv c (assign c tmp s n sp).self ∧
      (s.capacity < n → s.capacity < (assign c tmp s n sp).self.capacity) := by
  obtain ⟨⟨hsz, hcap⟩, hM⟩ := hR
  obtain ⟨hn, -⟩ := assign_ok_imp c hc tmp s ⟨hsz, hcap⟩ n sp d h
  unfold assign at h ⊢
  by_cases hgt : n > s.capacity
  · rw [if_pos hgt] at h ⊢
    obtain ⟨g, hg, hle, hmax⟩ := growth_ok c n s.capacity hn hcap
    rw [hg] at h ⊢
    simp only [] at h ⊢
    cases hr : (construct_size c tmp g sp).ret with
    | error e => rw [hr] at h; simp at h
    | ok d1 =>
      obtain ⟨k1, k2, k3, -⟩ := construct_size_light c hc tmp g sp d1 hr
      simp only [RepInv, Bounds, Mode, term_size, term_capacity, term_on_heap]
      exact ⟨⟨⟨by omega, k2⟩, k3⟩, fun _ => by omega⟩
  · rw [if_neg hgt]
    simp only [RepInv, Bounds, Mode, term_size, term_capacity, term_on_heap]
    exact ⟨⟨⟨by omega, hcap⟩, hM⟩, fun h => by omega⟩

theorem append_rep (c : Config) (hc : c.ok) (tmp s : impl) (hR : RepInv c s) (n : Nat)
    (sp : storage) (d : Ptr) (h : (append c tmp s n sp).ret = .ok d) :
    RepInv c (append c tmp s n sp).self ∧
      (¬ n ≤ s.capacity - s.size → s.capacity < (append c tmp s n sp).self.capacity) := by
  obtain ⟨⟨hsz, hcap⟩, hM⟩ := hR
  obtain ⟨hn, -⟩ := append_ok_imp c hc tmp s ⟨hsz, hcap⟩ n sp d h
  have h2 := hc.2.2
  have hs1 : c.sub c.max_size_ s.size = c.max_size_ - s.size :=
    c.sub_eq (by omega) (by omega)
  have hs2 : c.sub s.capacity s.size = s.capacity - s.size :=
    c.sub_eq hsz (by omega)
  have ha : c.add s.size n = s.size + n := c.add_eq (by omega)
  unfold append at h ⊢
  rw [hs1, hs2, ha, if_neg (by omega)] at h ⊢
  by_cases hin : n ≤ s.capacity - s.size
  · rw [if_pos hin]
    simp only [RepInv, Bounds, Mode, term_size, term_capacity, term_on_heap]
    exact ⟨⟨⟨by omega, hcap⟩, hM⟩, fun h => by omega⟩
  · rw [if_neg hin] at h ⊢
    obtain ⟨g, hg, hle, hmax⟩ := growth_ok c (s.size + n) s.capacity (by omega) hcap
    rw [hg] at h ⊢
    simp only [] at h ⊢
    cases hr : (construct_size c tmp g sp).ret with
    | error e => rw [hr] at h; simp at h
    | ok d1 =>
      obtain ⟨k1, k2, k3, -⟩ := construct_size_light c hc tmp g sp d1 hr
      simp only [RepInv, Bounds, Mode, term_size, term_capacity, term_on_heap,
        store_capacity, store_on_heap]
      exact ⟨⟨⟨by omega, k2⟩, k3⟩, fun _ => by omega⟩

theorem insert_rep (c : Config) (hc : c.ok) (tmp s : impl) (hR : RepInv c s) (pos n : Nat)
    (sp : storage) (d : Ptr) (h : (insert c tmp s pos n sp).ret = .ok d) :
    RepInv c (insert c tmp s pos n sp).self ∧
      (¬ n ≤ s.capacity - s.size → s.capacity < (insert c tmp s pos n sp).self.capacity) := by
  obtain ⟨⟨hsz, hcap⟩, hM⟩ := hR
  obtain ⟨hpos, hn, -⟩ := insert_ok_imp c hc tmp s ⟨hsz, hcap⟩ pos n sp d h
  have h2 := hc.2.2
  have hs1 : c.sub c.max_size_ s.size = c.max_size_ - s.size :=
    c.sub_eq (by omega) (by omega)
  have hs2 : c.sub s.capacity s.size = s.capacity - s.size :=
    c.sub_eq hsz (by omega)
  have ha : c.add s.size n = s.size + n := c.add_eq (by omega)
  unfold insert at h ⊢
  rw [if_neg (by omega), hs2, hs1] at h ⊢
  by_cases hin : n ≤ s.capacity - s.size
  · rw [if_pos hin]
    simp only [RepInv, Bounds, Mode, store_size, store_capacity, store_on_heap, ha]
    exact ⟨⟨⟨by omega, hcap⟩, hM⟩, fun h => by omega⟩
  · rw [if_neg hin, if_neg (by omega), ha] at h ⊢
    obtain ⟨g, hg, hle, hmax⟩ := growth_ok c (s.size + n) s.capacity (by omega) hcap
    rw [hg] at h ⊢
    simp only [] at h ⊢
    cases hr : (construct_size c tmp g sp).ret with
    | error e => rw [hr] at h; simp at h
    | ok d1 =>
      obtain ⟨k1, k2, k3, -⟩ := construct_size_light c hc tmp g sp d1 hr
      simp only [RepInv, Bounds, Mode, store_size, store_capacity, store_on_heap]
      exact ⟨⟨⟨by omega, k2⟩, k3⟩, fun _ => by omega⟩

theorem unalloc_rep (c : Config) (hc : c.ok) (s : impl) (hlt : s.size < c.buf_size)
    (sp : storage) : RepInv c (unalloc c s sp).1 := by
  obtain ⟨h0, h1, h2⟩ := hc
  simp [unalloc, RepInv, Bounds, Mode, Config.inline_capacity]
  omega

theorem construct_rep (c : Config) (hc : c.ok) (s : impl) : RepInv c (construct c s) := by
  obtain ⟨h0, h1, h2⟩ := hc
  simp [construct, RepInv, Bounds, Mode, Config.inline_capacity]
  omega

theorem construct_forward_rep (c : Config) (hc : c.ok) (s : impl) (B : List Nat)
    (sp : storage) (u : Unit) (h : (construct_forward c s B sp).ret = .ok u) :
    RepInv c (construct_forward c s B sp).self := by
  unfold construct_forward at h ⊢
  simp only [] at h ⊢
  cases hr : (construct_size c s (c.wrap B.length) sp).ret with
  | error e => rw [hr] at h; simp at h
  | ok d1 =>
    obtain ⟨k1, k2, k3, -⟩ := construct_size_light c hc s _ sp d1 hr
    simp only [RepInv, Bounds, Mode, store_size, store_capacity, store_on_heap]
    exact ⟨⟨k1, k2⟩, k3⟩

theorem loop_rep (c : Config) (hc : c.ok) (tmp : Nat → impl) (rest : List Nat) :
    ∀ (s : impl) (sp : storage) (dest d : Ptr), RepInv c s →
      (construct_input_loop c tmp s sp dest rest).ret = .ok d →
      RepInv c (construct_input_loop c tmp s sp dest rest).self := by
  induction rest with
  | nil => intro s sp dest d hR _; exact hR
  | cons b rest ih =>
    intro s sp dest d hR h
    rw [construct_input_loop] at h ⊢
    by_cases hlt : s.size < s.capacity
    · rw [if_pos hlt] at h ⊢
      have ha : c.add s.size 1 = s.size + 1 :=
        c.add_eq (by have := hR.1.2; have := hc.2.2; omega)
      refine ih _ sp _ d ?_ h
      simp only [RepInv, Bounds, Mode, store_size, store_capacity, store_on_heap, ha]
      exact ⟨⟨hlt, hR.1.2⟩, hR.2⟩
    · rw [if_neg hlt] at h ⊢
      simp only [] at h ⊢
      cases hr : (append c (tmp (rest.length + 1)) s 1 sp).ret with
      | error e => rw [hr] at h; simp at h
      | ok d1 =>
        rw [hr] at h
        simp only [] at h ⊢
        refine ih _ _ _ d ?_ h
        have := (append_rep c hc (tmp (rest.length + 1)) s hR 1 sp d1 hr).1
        simpa only [RepInv, Bounds, Mode, store_size, store_capacity, store_on_heap]
          using this

theorem construct_input_rep (c : Config) (hc : c.ok) (tmp : Nat → impl) (s : impl)
    (B : List Nat) (sp : storage) (r : Out Unit) (u : Unit)
    (h : construct_input c tmp s B sp = some r) (hu : r.ret = .ok u) :
    RepInv c r.self := by
  cases B with
  | nil => simp [construct_input] at h
  | cons b rest =>
    rw [construct_input] at h
    simp only [] at h
    cases hr : (construct_size c s 1 sp).ret with
    | error e => rw [hr] at h; simp at h; rw [← h] at hu; simp at hu
    | ok d1 =>
      rw [hr] at h
      simp only [] at h
      obtain ⟨k1, k2, k3, -⟩ := construct_size_light c hc s 1 sp d1 hr
      have hR2 : RepInv c (({ (construct_size c s 1 sp).self with size := 1 } : impl).store
          d1 [b]) := by
        simp only [RepInv, Bounds, Mode, store_size, store_capacity, store_on_heap]
        exact ⟨⟨k1, k2⟩, k3⟩
      cases hl : (construct_input_loop c tmp
          (({ (construct_size c s 1 sp).self with size := 1 } : impl).store d1 [b])
          (construct_size c s 1 sp).sp (d1.plus 1) rest).ret with
      | error e => rw [hl] at h; simp at h; rw [← h] at hu; simp at hu
      | ok d2 =>
        rw [hl] at h
        simp only [Option.some.injEq] at h
        have := loop_rep c hc tmp rest _ _ _ d2 hR2 hl
        rw [← h]
        simpa only [RepInv, Bounds, Mode, store_size, store_capacity, store_on_heap]
          using this

/-- C9 (representation invariant): the predicate `size <= capacity <= max_size_, and the
storage mode is inline iff capacity == INLINE_CAPACITY` holds after `construct()` and
after every successful known-length or single-pass construct, and is preserved by every
successful `assign`, `append`, `insert` and by `unalloc` under its assertion
`size < sizeof(buf)`.  In particular the reallocating branch of `assign`, `append` and
`insert`, taken from a state whose capacity is at least INLINE_CAPACITY (as every
capacity set by the code is), ends in heap mode with a capacity strictly greater than
INLINE_CAPACITY; and whenever `construct(new_size, sp)`, the one function that allocates,
has allocated, the capacity is strictly greater than INLINE_CAPACITY. -/
theorem representation_invariant (c : Config) (hc : c.ok) :
    (∀ s, RepInv c (construct c s)) ∧
    (∀ s B sp u, (construct_forward c s B sp).ret = .ok u →
      RepInv c (construct_forward c s B sp).self) ∧
    (∀ tmp s B sp r u, construct_input c tmp s B sp = some r → r.ret = .ok u →
      RepInv c r.self) ∧
    (∀ tmp s n sp d, RepInv c s → (assign c tmp s n sp).ret = .ok d →
      RepInv c (assign c tmp s n sp).self) ∧
    (∀ tmp s n sp d, RepInv c s → (append c tmp s n sp).ret = .ok d →
      RepInv c (append c tmp s n sp).self) ∧
    (∀ tmp s pos n sp d, RepInv c s → (insert c tmp s pos n sp).ret = .ok d →
      RepInv c (insert c tmp s pos n sp).self) ∧
    (∀ s sp, RepInv c s → s.size < c.buf_size → RepInv c (unalloc c s sp).1) ∧
    (∀ tmp s n sp d, RepInv c s → c.inline_capacity ≤ s.capacity → s.capacity < n →
      (assign c tmp s n sp).ret = .ok d →
      c.inline_capacity < (assign c tmp s n sp).self.capacity ∧
        (assign c tmp s n sp).self.on_heap = true) ∧
    (∀ tmp s n sp d, RepInv c s → c.inline_capacity ≤ s.capacity →
      ¬ n ≤ s.capacity - s.size → (append c tmp s n sp).ret = .ok d →
      c.inline_capacity < (append c tmp s n sp).self.capacity ∧
        (append c tmp s n sp).self.on_heap = true) ∧
    (∀ tmp s pos n sp d, RepInv c s → c.inline_capacity ≤ s.capacity →
      ¬ n ≤ s.capacity - s.size → (insert c tmp s pos n sp).ret = .ok d →
      c.inline_capacity < (insert c tmp s pos n sp).self.capacity ∧
        (insert c tmp s pos n sp).self.on_heap = true) ∧
    (∀ t n sp d, (construct_size c t n sp).ret = .ok d →
      (construct_size c t n sp).self.on_heap = true →
      c.inline_capacity < (construct_size c t n sp).self.capacity) := by
  refine ⟨fun s => construct_rep c hc s,
    fun s B sp u h => construct_forward_rep c hc s B sp u h,
    fun tmp s B sp r u h hu => construct_input_rep c hc tmp s B sp r u h hu,
    fun tmp s n sp d hR h => (assign_rep c hc tmp s hR n sp d h).1,
    fun tmp s n sp d hR h => (append_rep c hc tmp s hR n sp d h).1,
    fun tmp s pos n sp d hR h => (insert_rep c hc tmp s hR pos n sp d h).1,
    fun s sp _ hlt => unalloc_rep c hc s hlt sp, ?_, ?_, ?_,
    fun t n sp d h => (construct_size_light c hc t n sp d h).2.2.2⟩
  · intro tmp s n sp d hR hi hslow h
    obtain ⟨hR1, hgt⟩ := assign_rep c hc tmp s hR n sp d h
    have hlt := hgt hslow
    refine ⟨by omega, ?_⟩
    cases hh : (assign c tmp s n sp).self.on_heap with
    | true => rfl
    | false => have := hR1.2.mp hh; omega
  · intro tmp s n sp d hR hi hslow h
    obtain ⟨hR1, hgt⟩ := append_rep c hc tmp s hR n sp d h
    have hlt := hgt hslow
    refine ⟨by omega, ?_⟩
    cases hh : (append c tmp s n sp).self.on_heap with
    | true => rfl
    | false => have := hR1.2.mp hh; omega
  · intro tmp s pos n sp d hR hi hslow h
    obtain ⟨hR1, hgt⟩ := insert_rep c hc tmp s hR pos n sp d h
    have hlt := hgt hslow
    refine ⟨by omega, ?_⟩
    cases hh : (insert c tmp s pos n sp).self.on_heap with
    | true => rfl
    | false => have := hR1.2.mp hh; omega

theorem representation_invariant_witness :
    (cfg8.ok ∧ RepInv cfg8 abc ∧ cfg8.inline_capacity ≤ abc.capacity ∧
      ¬ (100 ≤ abc.capacity - abc.size) ∧
      (append cfg8 junk_impl abc 100 mem_ok).ret = .ok ⟨true, 3⟩ ∧
      (insert cfg8 junk_impl abc 1 2 mem_ok).ret = .ok ⟨false, 1⟩ ∧
      (construct_size cfg8 junk_impl 20 mem_ok).ret = .ok ⟨true, 0⟩ ∧
      (construct_size cfg8 junk_impl 20 mem_ok).self.on_heap = true) ∧
    RepInv cfg8 (append cfg8 junk_impl abc 100 mem_ok).self ∧
    RepInv cfg8 (insert cfg8 junk_impl abc 1 2 mem_ok).self ∧
    (cfg8.inline_capacity < (append cfg8 junk_impl abc 100 mem_ok).self.capacity ∧
      (append cfg8 junk_impl abc 100 mem_ok).self.on_heap = true) ∧
    cfg8.inline_capacity < (construct_size cfg8 junk_impl 20 mem_ok).self.capacity :=
  ⟨by decide,
   (representation_invariant cfg8 (by decide)).2.2.2.2.1 junk_impl abc 100 mem_ok
     ⟨true, 3⟩ (by decide) (by decide),
   (representation_invariant cfg8 (by decide)).2.2.2.2.2.1 junk_impl abc 1 2 mem_ok
     ⟨false, 1⟩ (by decide) (by decide),
   (representation_invariant cfg8 (by decide)).2.2.2.2.2.2.2.2.1 junk_impl abc 100 mem_ok
     ⟨true, 3⟩ (by decide) (by decide) (by decide) (by decide),
   (representation_invariant cfg8 (by decide)).2.2.2.2.2.2.2.2.2.2 junk_impl 20 mem_ok
     ⟨true, 0⟩ (by decide) (by decide)⟩

/-! ## The threshold of the small-buffer optimisation -/

/-- C10 (SBO threshold of `construct(new_size, sp)`): for `new_size <= INLINE_CAPACITY` it
allocates nothing (the memory resource is untouched), selects the inline storage and sets
`capacity = INLINE_CAPACITY`; for `INLINE_CAPACITY < new_size <= max_size_` it calls
`allocate` exactly once, for `capacity + 1` bytes, where
`capacity = growth(new_size, INLINE_CAPACITY) > INLINE_CAPACITY`. -/
theorem sbo_threshold (c : Config) (hc : c.ok) (t : impl) (sp : storage) (n : Nat) :
    (n ≤ c.inline_capacity →
      (construct_size c t n sp).ret = .ok ⟨false, 0⟩ ∧ (construct_size c t n sp).sp = sp ∧
        (construct_size c t n sp).self.on_heap = false ∧
        (construct_size c t n sp).self.capacity = c.inline_capacity) ∧
    (c.inline_capacity < n → n ≤ c.max_size_ →
      ∃ g, growth c n c.inline_capacity = .ok g ∧ c.inline_capacity < g ∧
        (construct_size c t n sp).self.capacity = g ∧
        (construct_size c t n sp).sp.calls = sp.calls + 1 ∧
        (sp.fail sp.calls = false →
          (construct_size c t n sp).ret = .ok ⟨true, 0⟩ ∧
            (construct_size c t n sp).self.on_heap = true ∧
            (construct_size c t n sp).self.p.bytes.length = g + 1 ∧
            (construct_size c t n sp).sp.live
              = ((construct_size c t n sp).self.p.addr, g + 1) :: sp.live) ∧
        (sp.fail sp.calls = true →
          (construct_size c t n sp).ret = .error .bad_alloc ∧
            (construct_size c t n sp).sp.live = sp.live)) := by
  obtain ⟨h0, h1, h2⟩ := hc
  constructor
  · intro hn
    have hlt : n < c.buf_size := by unfold Config.inline_capacity at hn; omega
    unfold construct_size
    rw [if_pos hlt]
    exact ⟨rfl, rfl, rfl, rfl⟩
  · intro hn hmax
    have hlt : ¬ n < c.buf_size := by unfold Config.inline_capacity at hn; omega
    obtain ⟨g, hg, hle, hgm⟩ := growth_ok c n c.inline_capacity hmax (by
      unfold Config.inline_capacity; omega)
    have hadd : c.add g 1 = g + 1 := c.add_eq (by omega)
    refine ⟨g, hg, by omega, ?_⟩
    unfold construct_size
    simp only [if_neg hlt, hg, storage.allocate, hadd]
    by_cases hf : sp.fail sp.calls = true
    · simp [hf]
    · simp [hf]

theorem sbo_threshold_witness :
    (cfg8.ok ∧ (19 : Nat) ≤ cfg8.inline_capacity ∧ cfg8.inline_capacity < 20 ∧
      (20 : Nat) ≤ cfg8.max_size_) ∧
    (construct_size cfg8 junk_impl 19 mem_ok).sp = mem_ok ∧
    ∃ g, growth cfg8 20 cfg8.inline_capacity = .ok g ∧ cfg8.inline_capacity < g ∧
      (construct_size cfg8 junk_impl 20 mem_ok).self.capacity = g ∧
      (construct_size cfg8 junk_impl 20 mem_ok).sp.calls = mem_ok.calls + 1 ∧
      (mem_ok.fail mem_ok.calls = false →
        (construct_size cfg8 junk_impl 20 mem_ok).ret = .ok ⟨true, 0⟩ ∧
          (construct_size cfg8 junk_impl 20 mem_ok).self.on_heap = true ∧
          (construct_size cfg8 junk_impl 20 mem_ok).self.p.bytes.length = g + 1 ∧
          (construct_size cfg8 junk_impl 20 mem_ok).sp.live
            = ((construct_size cfg8 junk_impl 20 mem_ok).self.p.addr, g + 1) ::
              mem_ok.live) ∧
      (mem_ok.fail mem_ok.calls = true →
        (construct_size cfg8 junk_impl 20 mem_ok).ret = .error .bad_alloc ∧
          (construct_size cfg8 junk_impl 20 mem_ok).sp.live = mem_ok.live) :=
  ⟨by decide,
   ((sbo_threshold cfg8 (by decide) junk_impl mem_ok 19).1 (by decide)).2.1,
   (sbo_threshold cfg8 (by decide) junk_impl mem_ok 20).2 (by decide) (by decide)⟩

/-! ## The terminator invariant -/

theorem insert_TermInv (c : Config) (hc : c.ok) (tmp s : impl)
    (htmp : tmp.buf.length = c.buf_size) (hB : Bounds c s) (hS : Sized c s)
    (hT : TermInv c s) (pos n : Nat) (sp : storage) (d : Ptr)
    (h : (insert c tmp s pos n sp).ret = .ok d) :
    Bounds c (insert c tmp s pos n sp).self ∧ Sized c (insert c tmp s pos n sp).self ∧
      TermInv c (insert c tmp s pos n sp).self := by
  obtain ⟨hpos, -, -⟩ := insert_ok_imp c hc tmp s hB pos n sp d h
  obtain ⟨t, sp1, he, hsz, hBt, hSt, -, ⟨R, k2⟩, -, -⟩ :=
    insert_spec c hc tmp s htmp hB hS hT pos n sp (Or.inl ⟨d, h⟩)
  rw [he]
  refine ⟨hBt, hSt, ?_⟩
  have hC := (bytes_split c s hT).2.1
  have hi : s.size + n = (pos + n) + (s.size - pos) := by omega
  have hl : ((content c s).drop pos).length = s.size - pos := by simp [hC]
  unfold TermInv
  simp only []
  rw [hsz, hi, ← List.getElem?_drop, k2, ← hl, List.getElem?_append_right (le_refl _)]
  simp

/-- C4 (terminator invariant): the predicate `the byte at index size is 0 and the active
storage has an index size` is established by `construct()`, by the known-length construct
(on a sequence whose length is a `size_type` value) and by the single-pass construct,
whenever they succeed; and it is preserved by every successful `assign`, `append` and
`insert`, in place and reallocating, and by `unalloc` under its assertion
`size < sizeof(buf)`.  The starting states are those with `size <= capacity`, in the form
the program has them: `capacity <= max_size_` and `capacity + 1` bytes in the active
storage (`Bounds`, `Sized`).  Both are part of what the three constructs establish and of
what the four operations preserve, so every state the program produces is a starting
state. -/
theorem terminator_invariant (c : Config) (hc : c.ok) :
    (∀ s, s.buf.length = c.buf_size →
      Bounds c (construct c s) ∧ Sized c (construct c s) ∧ TermInv c (construct c s)) ∧
    (∀ s B sp u, s.buf.length = c.buf_size → B.length < 2 ^ c.bits →
      (construct_forward c s B sp).ret = .ok u →
      Bounds c (construct_forward c s B sp).self ∧
        Sized c (construct_forward c s B sp).self ∧
        TermInv c (construct_forward c s B sp).self) ∧
    (∀ tmp s B sp r u, (∀ k, (tmp k).buf.length = c.buf_size) →
      s.buf.length = c.buf_size → construct_input c tmp s B sp = some r → r.ret = .ok u →
      Bounds c r.self ∧ Sized c r.self ∧ TermInv c r.self) ∧
    (∀ tmp s n sp d, tmp.buf.length = c.buf_size → Bounds c s → Sized c s → TermInv c s →
      (assign c tmp s n sp).ret = .ok d →
      Bounds c (assign c tmp s n sp).self ∧ Sized c (assign c tmp s n sp).self ∧
        TermInv c (assign c tmp s n sp).self) ∧
    (∀ tmp s n sp d, tmp.buf.length = c.buf_size → Bounds c s → Sized c s → TermInv c s →
      (append c tmp s n sp).ret = .ok d →
      Bounds c (append c tmp s n sp).self ∧ Sized c (append c tmp s n sp).self ∧
        TermInv c (append c tmp s n sp).self) ∧
    (∀ tmp s pos n sp d, tmp.buf.length = c.buf_size → Bounds c s → Sized c s →
      TermInv c s → (insert c tmp s pos n sp).ret = .ok d →
      Bounds c (insert c tmp s pos n sp).self ∧ Sized c (insert c tmp s pos n sp).self ∧
        TermInv c (insert c tmp s pos n sp).self) ∧
    (∀ s sp, Bounds c s → Sized c s → TermInv c s → s.size < c.buf_size →
      Bounds c (unalloc c s sp).1 ∧ Sized c (unalloc c s sp).1 ∧
        TermInv c (unalloc c s sp).1) := by
  refine ⟨?_, ?_, ?_, ?_, ?_, ?_, ?_⟩
  · intro s hs
    obtain ⟨-, -, -, k1, -, k2, k3⟩ := construct_spec c hc s hs
    exact ⟨k1, k2, k3⟩
  · intro s B sp u hs hB h
    obtain ⟨t, sp1, he, -, hBt, -, hSt, hT, -, -⟩ :=
      construct_forward_spec c hc s hs B sp (Or.inl ⟨⟨u, h⟩, hB⟩)
    rw [he]; exact ⟨hBt, hSt, hT⟩
  · intro tmp s B sp r u htmp hs h hu
    cases B with
    | nil => simp [construct_input] at h
    | cons b rest =>
      obtain ⟨t, sp1, he, -, hBt, -, hSt, hT, -, -⟩ :=
        construct_input_spec c hc tmp htmp s hs b rest sp (Or.inl ⟨r, u, h, hu⟩)
      rw [he] at h
      simp only [Option.some.injEq] at h
      rw [← h]; exact ⟨hBt, hSt, hT⟩
  · intro tmp s n sp d htmp hB hS _ h
    obtain ⟨t, sp1, he, -, hBt, hSt, hT, -, -⟩ :=
      assign_spec c hc tmp s htmp hB hS n sp (Or.inl ⟨d, h⟩)
    rw [he]; exact ⟨hBt, hSt, hT⟩
  · intro tmp s n sp d htmp hB hS _ h
    obtain ⟨t, sp1, he, -, hBt, hSt, hT, -, -, -⟩ :=
      append_spec c hc tmp s htmp hB hS n sp (Or.inl ⟨d, h⟩)
    rw [he]; exact ⟨hBt, hSt, hT⟩
  · intro tmp s pos n sp d htmp hB hS hT h
    exact insert_TermInv c hc tmp s htmp hB hS hT pos n sp d h
  · intro s sp _ hS hT hlt
    obtain ⟨-, -, -, k1, -, k2, k3, -, -⟩ := unalloc_spec c hc s hS hT hlt sp
    exact ⟨k1, k2, k3⟩

theorem terminator_invariant_witness :
    (cfg8.ok ∧ junk_impl.buf.length = cfg8.buf_size ∧ Bounds cfg8 abc ∧ Sized cfg8 abc ∧
      TermInv cfg8 abc ∧ (insert cfg8 junk_impl abc 1 100 mem_ok).ret = .ok ⟨true, 1⟩ ∧
      (append cfg8 junk_impl abc 2 mem_ok).ret = .ok ⟨false, 3⟩ ∧
      (construct_forward cfg8 junk_impl [4, 5] mem_ok).ret = .ok ()) ∧
    TermInv cfg8 (insert cfg8 junk_impl abc 1 100 mem_ok).self ∧
    TermInv cfg8 (append cfg8 junk_impl abc 2 mem_ok).self ∧
    TermInv cfg8 (construct_forward cfg8 junk_impl [4, 5] mem_ok).self :=
  ⟨by decide,
   ((terminator_invariant cfg8 (by decide)).2.2.2.2.2.1 junk_impl abc 1 100 mem_ok ⟨true, 1⟩
     (by decide) (by decide) (by decide) (by decide) (by decide)).2.2,
   ((terminator_invariant cfg8 (by decide)).2.2.2.2.1 junk_impl abc 2 mem_ok ⟨false, 3⟩
     (by decide) (by decide) (by decide) (by decide) (by decide)).2.2,
   ((terminator_invariant cfg8 (by decide)).2.1 junk_impl [4, 5] mem_ok ()
     (by decide) (by decide) (by decide)).2.2⟩

/-! ## The failures of `insert` -/

theorem construct_size_succeeds (c : Config) (t : impl) (g : Nat) (sp : storage)
    (hg : g ≤ c.max_size_) (hf : sp.fail sp.calls = false) :
    ∃ d, (construct_size c t g sp).ret = .ok d := by
  cases hr : (construct_size c t g sp).ret with
  | ok d => exact ⟨d, rfl⟩
  | error e =>
    exfalso
    rcases construct_size_error c t g sp e hr with h | h
    · subst h
      unfold construct_size at hr
      split_ifs at hr
      cases hg1 : growth c g c.inline_capacity with
      | error e1 => exact absurd ((growth_error_iff c g _ e1).mp hg1).2 (by omega)
      | ok g1 =>
        rw [hg1] at hr
        simp only [storage.allocate, hf] at hr
        simp at hr
    · omega

/-- C11 (insert failure conditions): on a buffer with `size <= capacity <= max_size_`,
`impl::insert(pos, n)` throws `out_of_range` if and only if `pos > size`; it throws
`length_error` if and only if `pos <= size` and `n > max_size_ - size`; and in every other
case it returns normally whenever the allocation (if any) succeeds.  The in-place test
`n <= capacity - size`, made before the size check, never lets an insert with
`n > max_size_ - size` through. -/
theorem insert_failure_conditions (c : Config) (hc : c.ok) (tmp s : impl) (hB : Bounds c s)
    (pos n : Nat) (sp : storage) :
    ((insert c tmp s pos n sp).ret = .error .out_of_range ↔ s.size < pos) ∧
    ((insert c tmp s pos n sp).ret = .error .length_error ↔
      (pos ≤ s.size ∧ c.max_size_ - s.size < n)) ∧
    (pos ≤ s.size → n ≤ c.max_size_ - s.size → sp.fail sp.calls = false →
      ∃ d, (insert c tmp s pos n sp).ret = .ok d) := by
  obtain ⟨hsz, hcap⟩ := hB
  obtain ⟨h0, h1, h2⟩ := hc
  have hs1 : c.sub c.max_size_ s.size = c.max_size_ - s.size :=
    c.sub_eq (by omega) (by omega)
  have hs2 : c.sub s.capacity s.size = s.capacity - s.size :=
    c.sub_eq hsz (by omega)
  unfold insert
  rw [hs1, hs2]
  by_cases hp : pos > s.size
  · rw [if_pos hp]
    refine ⟨⟨fun _ => hp, fun _ => rfl⟩, ⟨fun h => ?_, fun h => ?_⟩, fun h => ?_⟩
    · simp at h
    · omega
    · omega
  · rw [if_neg hp]
    by_cases hin : n ≤ s.capacity - s.size
    · rw [if_pos hin]
      refine ⟨⟨fun h => ?_, fun h => ?_⟩, ⟨fun h => ?_, fun h => ?_⟩, fun _ _ _ => ⟨_, rfl⟩⟩
      · simp at h
      · omega
      · simp at h
      · omega
    · rw [if_neg hin]
      by_cases hgt : n > c.max_size_ - s.size
      · rw [if_pos hgt]
        refine ⟨⟨fun h => ?_, fun h => ?_⟩, ⟨fun _ => ⟨by omega, hgt⟩, fun _ => rfl⟩,
          fun _ h => ?_⟩
        · simp at h
        · omega
        · omega
      · rw [if_neg hgt]
        have ha : c.add s.size n = s.size + n := c.add_eq (by omega)
        obtain ⟨g, hg, hle, hmax⟩ := growth_ok c (s.size + n) s.capacity (by omega) hcap
        rw [ha, hg]
        simp only []
        cases hr : (construct_size c tmp g sp).ret with
        | ok d =>
          simp only []
          refine ⟨⟨fun h => ?_, fun h => ?_⟩, ⟨fun h => ?_, fun h => ?_⟩,
            fun _ _ _ => ⟨_, rfl⟩⟩
          · simp at h
          · omega
          · simp at h
          · omega
        | error e =>
          simp only []
          have he : e = .bad_alloc := by
            rcases construct_size_error c tmp g sp e hr with h | h
            · exact h
            · omega
          subst he
          refine ⟨⟨fun h => ?_, fun h => ?_⟩, ⟨fun h => ?_, fun h => ?_⟩, fun _ _ hf => ?_⟩
          · simp at h
          · omega
          · simp at h
          · omega
          · obtain ⟨d, hd⟩ := construct_size_succeeds c tmp g sp hmax hf
            rw [hd] at hr
            cases hr

theorem insert_failure_conditions_witness :
    (cfg8.ok ∧ Bounds cfg8 abc ∧ (2 : Nat) ≤ abc.size ∧
      (100 : Nat) ≤ cfg8.max_size_ - abc.size ∧ mem_ok.fail mem_ok.calls = false ∧
      abc.size < 4 ∧ cfg8.max_size_ - abc.size < 198) ∧
    (∃ d, (insert cfg8 junk_impl abc 2 100 mem_ok).ret = .ok d) ∧
    (insert cfg8 junk_impl abc 4 1 mem_ok).ret = .error .out_of_range ∧
    (insert cfg8 junk_impl abc 3 198 mem_ok).ret = .error .length_error :=
  ⟨by decide,
   (insert_failure_conditions cfg8 (by decide) junk_impl abc (by decide) 2 100 mem_ok).2.2
     (by decide) (by decide) (by decide),
   (insert_failure_conditions cfg8 (by decide) junk_impl abc (by decide) 4 1 mem_ok).1.mpr
     (by decide),
   (insert_failure_conditions cfg8 (by decide) junk_impl abc (by decide) 3 198 mem_ok).2.1.mpr
     (by decide)⟩

/-! ## `string::assign` of a known-length sequence -/

/-- Filling the region returned by `assign(|B|)` with `B`. -/
theorem fill_from_start (T B : List Nat) (h : T[B.length]? = some 0) :
    (writeAt T 0 B).take B.length = B ∧ (writeAt T 0 B)[B.length]? = some 0 := by
  have hl := (split_at_index h).2
  refine ⟨take_writeAt_zero T B (by omega), ?_⟩
  rw [writeAt_eq T 0 B (by omega)]
  simp only [List.take_zero, List.nil_append, Nat.zero_add]
  rw [List.getElem?_append_right (le_refl _)]
  simpa using h

theorem destroy_heap (c : Config) (s : impl) (sp : storage) (hB : Bounds c s)
    (hc : c.ok) (hM : Mode c s) :
    (s.on_heap = true → destroy c s sp = sp.deallocate s.p.addr (s.capacity + 1)) ∧
      (s.on_heap = false → destroy c s sp = sp) := by
  have ha : c.add s.capacity 1 = s.capacity + 1 :=
    c.add_eq (by have := hB.2; have := hc.2.2; omega)
  unfold destroy
  rw [ha]
  constructor
  · intro h
    have : in_sbo c s = false := by
      cases hi : in_sbo c s with
      | false => rfl
      | true =>
        have h1 : s.capacity = c.inline_capacity := by simpa [in_sbo] using hi
        have := hM.mpr h1
        rw [h] at this; cases this
    simp [this]
  · intro h
    have : in_sbo c s = true := by simpa [in_sbo] using hM.mp h
    simp [this]

/-- C12 (assign contract): on a buffer satisfying the data-model invariants, assigning a
sequence `B` (of a length that is a `size_type` value) through the known-length path,
`impl::assign(|B|)` followed by the copy, throws `length_error` exactly when
`|B| > max_size_`; otherwise, the allocation (if any) succeeding, the content is exactly
`B`, whatever it was before, with length `|B|` and a 0 byte at index `|B|`.  When
`|B| <= capacity`, capacity, storage mode and memory resource are unchanged; when
`|B| > capacity` and the call succeeds, the new capacity is at least `|B|` and the old heap
block, if any, has been deallocated with `capacity + 1` bytes. -/
theorem assign_contract (c : Config) (hc : c.ok) (tmp s : impl)
    (htmp : tmp.buf.length = c.buf_size) (hI : Inv c s) (B : List Nat)
    (hlen : B.length < 2 ^ c.bits) (sp : storage) :
    ((assign_fill c tmp s B sp).ret = .error .length_error ↔ c.max_size_ < B.length) ∧
    (B.length ≤ c.max_size_ → sp.fail sp.calls = false →
      (assign_fill c tmp s B sp).ret = .ok () ∧
        content c (assign_fill c tmp s B sp).self = B ∧
        (assign_fill c tmp s B sp).self.size = B.length ∧
        (bytes c (assign_fill c tmp s B sp).self)[B.length]? = some 0) ∧
    (B.length ≤ s.capacity →
      (assign_fill c tmp s B sp).self.capacity = s.capacity ∧
        (assign_fill c tmp s B sp).self.on_heap = s.on_heap ∧
        (assign_fill c tmp s B sp).sp = sp) ∧
    (s.capacity < B.length → (assign_fill c tmp s B sp).ret = .ok () →
      B.length ≤ (assign_fill c tmp s B sp).self.capacity ∧
        ∃ g, growth c B.length s.capacity = .ok g ∧
          (s.on_heap = true → (assign_fill c tmp s B sp).sp
            = (construct_size c tmp g sp).sp.deallocate s.p.addr (s.capacity + 1)) ∧
          (s.on_heap = false → (assign_fill c tmp s B sp).sp
            = (construct_size c tmp g sp).sp)) := by
  obtain ⟨⟨hBd, hM⟩, hS, hT⟩ := hI
  have hw : c.wrap B.length = B.length := c.wrap_eq hlen
  have key : ∀ d, (assign c tmp s B.length sp).ret = .ok d →
      (assign_fill c tmp s B sp).ret = .ok () ∧
        content c (assign_fill c tmp s B sp).self = B ∧
        (assign_fill c tmp s B sp).self.size = B.length ∧
        (bytes c (assign_fill c tmp s B sp).self)[B.length]? = some 0 ∧
        B.length ≤ (assign_fill c tmp s B sp).self.capacity := by
    intro d hd
    obtain ⟨t, sp1, he, hsz, hBt, hSt, hTt, -, -⟩ :=
      assign_spec c hc tmp s htmp hBd hS B.length sp (Or.inl ⟨d, hd⟩)
    unfold assign_fill
    rw [hw, he]
    simp only []
    have hb : bytes c (t.store (data c t) B) = writeAt (bytes c t) 0 B :=
      bytes_store c t 0 B
    unfold TermInv at hTt
    rw [hsz] at hTt
    obtain ⟨k1, k2⟩ := fill_from_start (bytes c t) B hTt
    refine ⟨trivial, ?_, by simpa using hsz, ?_, ?_⟩
    · unfold content
      rw [hb, store_size, hsz]; exact k1
    · rw [hb]; exact k2
    · have := hBt.1; rw [hsz] at this; simpa using this
  refine ⟨?_, ?_, ?_, ?_⟩
  · unfold assign_fill
    rw [hw]
    simp only []
    constructor
    · intro h
      by_contra hle
      cases hr : (assign c tmp s B.length sp).ret with
      | ok d => rw [hr] at h; simp at h
      | error e =>
        rw [hr] at h
        simp only [Except.error.injEq] at h
        subst h
        unfold assign at hr
        by_cases hgt : B.length > s.capacity
        · rw [if_pos hgt] at hr
          obtain ⟨g, hg, -, hmax⟩ := growth_ok c B.length s.capacity (by omega) hBd.2
          rw [hg] at hr
          simp only [] at hr
          cases hr1 : (construct_size c tmp g sp).ret with
          | ok d1 => rw [hr1] at hr; simp at hr
          | error e1 =>
            rw [hr1] at hr
            simp only [Except.error.injEq] at hr
            subst hr
            rcases construct_size_error c tmp g sp _ hr1 with h3 | h3
            · cases h3
            · omega
        · rw [if_neg hgt] at hr; simp at hr
    · intro h
      have hgt : B.length > s.capacity := by have := hBd.2; omega
      have hg := (growth_error_iff c B.length s.capacity .length_error).mpr ⟨rfl, h⟩
      unfold assign
      rw [if_pos hgt, hg]
  · intro hle hf
    obtain ⟨t, sp1, he, -⟩ :=
      assign_spec c hc tmp s htmp hBd hS B.length sp (Or.inr ⟨hle, hf⟩)
    obtain ⟨k1, k2, k3, k4, -⟩ := key (data c t) (by rw [he])
    exact ⟨k1, k2, k3, k4⟩
  · intro hle
    unfold assign_fill assign
    rw [hw, if_neg (by omega)]
    simp [term_capacity, term_on_heap]
  · intro hgt hok
    have hd : ∃ d, (assign c tmp s B.length sp).ret = .ok d := by
      cases hr : (assign c tmp s B.length sp).ret with
      | ok d => exact ⟨d, rfl⟩
      | error e =>
        unfold assign_fill at hok
        rw [hw] at hok
        simp only [] at hok
        rw [hr] at hok
        simp at hok
    obtain ⟨d, hd⟩ := hd
    obtain ⟨-, -, -, -, k5⟩ := key d hd
    refine ⟨k5, ?_⟩
    obtain ⟨hn, -⟩ := assign_ok_imp c hc tmp s hBd B.length sp d hd
    obtain ⟨g, hg, -, -⟩ := growth_ok c B.length s.capacity hn hBd.2
    refine ⟨g, hg, ?_⟩
    have hsp : (assign_fill c tmp s B sp).sp = destroy c s (construct_size c tmp g sp).sp := by
      unfold assign_fill
      rw [hw]
      unfold assign at hd ⊢
      rw [if_pos hgt, hg] at hd ⊢
      simp only [] at hd ⊢
      cases hr : (construct_size c tmp g sp).ret with
      | error e => rw [hr] at hd; simp at hd
      | ok d1 => rfl
    rw [hsp]
    exact destroy_heap c s _ hBd hc hM

theorem assign_contract_witness :
    (cfg8.ok ∧ junk_impl.buf.length = cfg8.buf_size ∧ Inv cfg8 abc ∧
      (List.replicate 30 7).length < 2 ^ cfg8.bits ∧
      (List.replicate 30 7).length ≤ cfg8.max_size_ ∧ mem_ok.fail mem_ok.calls = false ∧
      abc.capacity < (List.replicate 30 7).length) ∧
    content cfg8 (assign_fill cfg8 junk_impl abc (List.replicate 30 7) mem_ok).self
      = List.replicate 30 7 ∧
    (assign_fill cfg8 junk_impl abc [5, 6] mem_ok).self.capacity = abc.capacity :=
  ⟨by decide,
   ((assign_contract cfg8 (by decide) junk_impl abc (by decide) (by decide)
      (List.replicate 30 7) (by decide) mem_ok).2.1 (by decide) (by decide)).2.1,
   ((assign_contract cfg8 (by decide) junk_impl abc (by decide) (by decide)
      [5, 6] (by decide) mem_ok).2.2.1 (by decide)).1⟩

/-! ## Growth in machine arithmetic -/

/-- C13 (growth saturation without overflow): with `max_size_ < 2 ^ bits`, for every
`req <= max_size_` and `cap <= max_size_` no intermediate value of `growth` wraps around
(`max_size_ - cap / 2` does not underflow, and `cap + cap / 2`, computed only when
`cap <= max_size_ - cap / 2`, does not overflow), so `growth` in `size_type` arithmetic
equals `growth` over unbounded naturals; and `growth(max_size_, cap)` returns `max_size_`
without an exception. -/
theorem growth_no_overflow (c : Config) (hm : c.max_size_ < 2 ^ c.bits) (req cap : Nat)
    (hr : req ≤ c.max_size_) (hcap : cap ≤ c.max_size_) :
    cap / 2 ≤ c.max_size_ ∧
      c.sub c.max_size_ (cap / 2) = c.max_size_ - cap / 2 ∧
      (¬ cap > c.max_size_ - cap / 2 →
        cap + cap / 2 < 2 ^ c.bits ∧ c.add cap (cap / 2) = cap + cap / 2) ∧
      growth c req cap = growth_nat c req cap ∧
      growth c c.max_size_ cap = .ok c.max_size_ := by
  have _ := hr
  have hs : c.sub c.max_size_ (cap / 2) = c.max_size_ - cap / 2 :=
    c.sub_eq (by omega) hm
  have ha : ¬ cap > c.max_size_ - cap / 2 →
      cap + cap / 2 < 2 ^ c.bits ∧ c.add cap (cap / 2) = cap + cap / 2 := by
    intro h
    have h1 : cap + cap / 2 < 2 ^ c.bits := by omega
    exact ⟨h1, c.add_eq h1⟩
  refine ⟨by omega, hs, ha, ?_, ?_⟩
  · unfold growth growth_nat
    rw [hs]
    by_cases h : cap > c.max_size_ - cap / 2
    · simp only [if_pos h]
    · simp only [if_neg h, (ha h).2]
  · unfold growth
    rw [hs, if_neg (by omega)]
    have hor := le_lor c.max_size_ c.mask_
    simp only []
    by_cases h1 : c.max_size_ ||| c.mask_ > c.max_size_
    · rw [if_pos h1]
    · rw [if_neg h1]
      by_cases h : cap > c.max_size_ - cap / 2
      · rw [if_pos h]
      · rw [if_neg h, (ha h).2]
        congr 1
        have : c.max_size_ ||| c.mask_ = c.max_size_ := by omega
        rw [this]
        exact max_eq_left (by omega)

theorem growth_no_overflow_witness :
    (cfg8.max_size_ < 2 ^ cfg8.bits ∧ (150 : Nat) ≤ cfg8.max_size_ ∧
      (190 : Nat) ≤ cfg8.max_size_) ∧
    growth cfg8 150 190 = growth_nat cfg8 150 190 ∧
    growth cfg8 cfg8.max_size_ 190 = .ok cfg8.max_size_ :=
  ⟨by decide,
   (growth_no_overflow cfg8 (by decide) 150 190 (by decide) (by decide)).2.2.2.1,
   (growth_no_overflow cfg8 (by decide) 150 190 (by decide) (by decide)).2.2.2.2⟩

/-! ## `unalloc` -/

/-- C14 (shrink-to-inline contract): on a heap-allocated buffer satisfying the data-model
invariants with `size <= INLINE_CAPACITY` (that is `size < sizeof(buf)`), `impl::unalloc`
leaves the length and the content bytes unchanged, keeps a 0 byte at index `size`,
switches the storage mode to inline with `capacity = INLINE_CAPACITY`, and deallocates
exactly the old heap block, with the byte count `capacity + 1` of the old capacity. -/
theorem shrink_to_inline (c : Config) (hc : c.ok) (s : impl) (hI : Inv c s)
    (hheap : s.on_heap = true) (hlt : s.size ≤ c.inline_capacity) (sp : storage) :
    (unalloc c s sp).1.size = s.size ∧
      content c (unalloc c s sp).1 = content c s ∧
      (bytes c (unalloc c s sp).1)[s.size]? = some 0 ∧
      (unalloc c s sp).1.on_heap = false ∧
      (unalloc c s sp).1.capacity = c.inline_capacity ∧
      Inv c (unalloc c s sp).1 ∧
      (unalloc c s sp).2 = sp.deallocate s.p.addr (s.capacity + 1) ∧
      (unalloc c s sp).2.live = sp.live.erase (s.p.addr, s.capacity + 1) := by
  have _ := hheap
  obtain ⟨⟨hBd, hM⟩, hS, hT⟩ := hI
  have hlt1 : s.size < c.buf_size := by
    have := hc.1; unfold Config.inline_capacity at hlt; omega
  obtain ⟨k1, k2, k3, k4, k5, k6, k7, k8, k9⟩ := unalloc_spec c hc s hS hT hlt1 sp
  have ha : c.add s.capacity 1 = s.capacity + 1 :=
    c.add_eq (by have := hBd.2; have := hc.2.2; omega)
  have hT1 : (bytes c (unalloc c s sp).1)[s.size]? = some 0 := by
    have := k7; unfold TermInv at this; rw [k1] at this; exact this
  rw [ha] at k9
  refine ⟨k1, k8, hT1, k3, k2, ⟨⟨k4, k5⟩, k6, k7⟩, k9, ?_⟩
  rw [k9]; rfl

theorem shrink_to_inline_witness :
    (cfg8.ok ∧
      Inv cfg8 ⟨2, 31, List.replicate 20 9, ⟨4, [1, 2, 0] ++ List.replicate 29 9⟩, true⟩ ∧
      (2 : Nat) ≤ cfg8.inline_capacity) ∧
    content cfg8 (unalloc cfg8
        ⟨2, 31, List.replicate 20 9, ⟨4, [1, 2, 0] ++ List.replicate 29 9⟩, true⟩
        ⟨fun _ => false, fun _ _ => 0, 5, [(4, 32), (1, 48)]⟩).1 = [1, 2] ∧
    (unalloc cfg8
        ⟨2, 31, List.replicate 20 9, ⟨4, [1, 2, 0] ++ List.replicate 29 9⟩, true⟩
        ⟨fun _ => false, fun _ _ => 0, 5, [(4, 32), (1, 48)]⟩).2.live = [(1, 48)] :=
  ⟨by decide,
   ((shrink_to_inline cfg8 (by decide)
      ⟨2, 31, List.replicate 20 9, ⟨4, [1, 2, 0] ++ List.replicate 29 9⟩, true⟩
      (by decide) rfl (by decide)
      ⟨fun _ => false, fun _ _ => 0, 5, [(4, 32), (1, 48)]⟩).2.1).trans (by decide),
   ((shrink_to_inline cfg8 (by decide)
      ⟨2, 31, List.replicate 20 9, ⟨4, [1, 2, 0] ++ List.replicate 29 9⟩, true⟩
      (by decide) rfl (by decide)
      ⟨fun _ => false, fun _ _ => 0, 5, [(4, 32), (1, 48)]⟩).2.2.2.2.2.2.2).trans
     (by decide)⟩

/-! ## No leak when the single-pass construct fails -/

/-- The outcomes of `construct(new_size, sp)` on the memory resource. -/
theorem construct_size_live (c : Config) (hc : c.ok) (t : impl) (g : Nat) (sp : storage) :
    (∀ d, (construct_size c t g sp).ret = .ok d →
      (in_sbo c (construct_size c t g sp).self = true ∧ (construct_size c t g sp).sp = sp) ∨
      (in_sbo c (construct_size c t g sp).self = false ∧
        (construct_size c t g sp).sp.live
          = ((construct_size c t g sp).self.p.addr,
              (construct_size c t g sp).self.capacity + 1) :: sp.live ∧
        (construct_size c t g sp).self.p.addr = sp.calls ∧
        (construct_size c t g sp).sp.calls = sp.calls + 1)) ∧
    (∀ e, (construct_size c t g sp).ret = .error e →
      (construct_size c t g sp).sp.live = sp.live ∧
        sp.calls ≤ (construct_size c t g sp).sp.calls) := by
  obtain ⟨h0, h1, h2⟩ := hc
  constructor
  · intro d h
    obtain ⟨hg, -⟩ := construct_size_ok_imp c ⟨h0, h1, h2⟩ t g sp d h
    unfold construct_size at h ⊢
    by_cases hlt : g < c.buf_size
    · left
      simp only [if_pos hlt]
      simp [in_sbo]
    · right
      rw [if_neg hlt] at h
      simp only [if_neg hlt]
      obtain ⟨g1, hg1, hle, hmax⟩ := growth_ok c g c.inline_capacity hg (by
        unfold Config.inline_capacity; omega)
      have hadd : c.add g1 1 = g1 + 1 := c.add_eq (by omega)
      rw [hg1] at h
      simp only [hg1, storage.allocate, hadd] at h ⊢
      by_cases hf : sp.fail sp.calls = true
      · rw [if_pos hf] at h; simp at h
      · simp only [if_neg hf]
        have hne : g1 ≠ c.buf_size - 1 := by omega
        simp [in_sbo, Config.inline_capacity, hne]
  · intro e h
    unfold construct_size at h ⊢
    by_cases hlt : g < c.buf_size
    · rw [if_pos hlt] at h; simp at h
    · simp only [if_neg hlt]
      cases hg1 : growth c g c.inline_capacity with
      | error e1 => simp
      | ok g1 =>
        simp only [storage.allocate]
        by_cases hf : sp.fail sp.calls = true
        · simp [hf]
        · rw [if_neg hlt, hg1] at h
          simp only [storage.allocate, if_neg hf] at h
          simp at h

/-- Destroying the object releases the one block it holds. -/
theorem owns_destroy (c : Config) (hc : c.ok) (L0 : List (Nat × Nat)) (s : impl)
    (sp : storage) (hB : Bounds c s) (hO : Owns c L0 s sp) :
    (destroy c s sp).live = L0 := by
  have ha : c.add s.capacity 1 = s.capacity + 1 :=
    c.add_eq (by have := hB.2; have := hc.2.2; omega)
  unfold destroy
  rw [ha]
  rcases hO with ⟨h1, h2⟩ | ⟨h1, h2, -⟩
  · simp [h1, h2]
  · simp [h1, storage.deallocate, h2]

/-- Whatever its outcome, `append` leaves the object holding exactly its own block. -/
theorem append_owns (c : Config) (hc : c.ok) (L0 : List (Nat × Nat)) (tmp s : impl)
    (n : Nat) (sp : storage) (hB : Bounds c s) (hO : Owns c L0 s sp) :
    Owns c L0 (append c tmp s n sp).self (append c tmp s n sp).sp := by
  have ha : c.add s.capacity 1 = s.capacity + 1 :=
    c.add_eq (by have := hB.2; have := hc.2.2; omega)
  unfold append
  split_ifs with h1 h2
  · exact hO
  · simpa [Owns, term_addr, term_capacity, in_sbo, term] using hO
  · cases hg : growth c (c.add s.size n) s.capacity with
    | error e => exact hO
    | ok g =>
      simp only []
      obtain ⟨hok, herr⟩ := construct_size_live c hc tmp g sp
      cases hr : (construct_size c tmp g sp).ret with
      | error e =>
        simp only []
        obtain ⟨k1, k2⟩ := herr e hr
        unfold Owns at hO ⊢
        rw [k1]
        rcases hO with h | ⟨h3, h4, h5⟩
        · exact Or.inl h
        · exact Or.inr ⟨h3, h4, by omega⟩
      | ok d =>
        simp only []
        have hcases := hok d hr
        generalize (construct_size c tmp g sp).self = t1 at *
        generalize (construct_size c tmp g sp).sp = sp1 at *
        have e1 : in_sbo c (term c (t1.store d (s.load (data c s) s.size)) (c.add s.size n))
            = in_sbo c t1 := by simp [in_sbo, term]
        have e2 : (term c (t1.store d (s.load (data c s) s.size)) (c.add s.size n)).p.addr
            = t1.p.addr := by simp [term_addr]
        have e3 : (term c (t1.store d (s.load (data c s) s.size)) (c.add s.size n)).capacity
            = t1.capacity := by simp [term_capacity]
        unfold Owns at hO ⊢
        rw [e1, e2, e3]
        unfold destroy
        rw [ha]
        rcases hO with ⟨h3, h4⟩ | ⟨h3, h4, h5⟩
        · simp only [h3, Bool.not_true, Bool.false_eq_true, if_false]
          rcases hcases with ⟨c1, c2⟩ | ⟨c1, c2, c3, c4⟩
          · left; exact ⟨c1, by rw [c2, h4]⟩
          · right; exact ⟨c1, by rw [c2, h4], by omega⟩
        · simp only [h3, Bool.not_false, if_true, storage.deallocate]
          rcases hcases with ⟨c1, c2⟩ | ⟨c1, c2, c3, c4⟩
          · left
            refine ⟨c1, ?_⟩
            rw [c2, h4]; simp
          · right
            refine ⟨c1, ?_, by omega⟩
            rw [c2, h4]
            have hne : ((t1.p.addr, t1.capacity + 1) == (s.p.addr, s.capacity + 1)) = false := by
              simp; omega
            rw [List.erase_cons, hne]
            simp

theorem loop_owns (c : Config) (hc : c.ok) (L0 : List (Nat × Nat)) (tmp : Nat → impl)
    (rest : List Nat) :
    ∀ (s : impl) (sp : storage) (dest : Ptr), RepInv c s → Owns c L0 s sp →
      Owns c L0 (construct_input_loop c tmp s sp dest rest).self
          (construct_input_loop c tmp s sp dest rest).sp ∧
        Bounds c (construct_input_loop c tmp s sp dest rest).self := by
  induction rest with
  | nil => intro s sp dest hR hO; exact ⟨hO, hR.1⟩
  | cons b rest ih =>
    intro s sp dest hR hO
    rw [construct_input_loop]
    by_cases hlt : s.size < s.capacity
    · rw [if_pos hlt]
      have ha : c.add s.size 1 = s.size + 1 :=
        c.add_eq (by have := hR.1.2; have := hc.2.2; omega)
      apply ih
      · simp only [RepInv, Bounds, Mode, store_size, store_capacity, store_on_heap, ha]
        exact ⟨⟨hlt, hR.1.2⟩, hR.2⟩
      · simpa [Owns, in_sbo] using hO
    · rw [if_neg hlt]
      simp only []
      have hO1 := append_owns c hc L0 (tmp (rest.length + 1)) s 1 sp hR.1 hO
      cases hr : (append c (tmp (rest.length + 1)) s 1 sp).ret with
      | error e =>
        simp only []
        refine ⟨hO1, ?_⟩
        rw [append_error_self c _ s 1 sp e hr]
        exact hR.1
      | ok d1 =>
        simp only []
        have hR1 := (append_rep c hc (tmp (rest.length + 1)) s hR 1 sp d1 hr).1
        apply ih
        · simpa only [RepInv, Bounds, Mode, store_size, store_capacity, store_on_heap]
            using hR1
        · simpa [Owns, in_sbo] using hO1

/-- C15 (no leak on failed single-pass construction): with the memory resource as
explicit state (the list of live blocks with their byte counts) and an inline array of at
least two bytes, for every non-empty sequence and every behaviour of `allocate`, when the
single-pass `impl::construct` throws, every block allocated during the call has been
deallocated with the byte count it was allocated with: the list of live blocks is the one
before the call. -/
theorem no_leak_on_failure (c : Config) (hc : c.ok) (h1 : 1 < c.buf_size)
    (tmp : Nat → impl) (s : impl) (B : List Nat) (sp : storage) (r : Out Unit) (e : Error)
    (h : construct_input c tmp s B sp = some r) (he : r.ret = .error e) :
    r.sp.live = sp.live := by
  cases B with
  | nil => simp [construct_input] at h
  | cons b rest =>
    rw [construct_input] at h
    have hcs : construct_size c s 1 sp
        = ⟨{ s with capacity := c.inline_capacity, on_heap := false }, sp, .ok ⟨false, 0⟩⟩ := by
      unfold construct_size
      rw [if_pos h1]
    rw [hcs] at h
    simp only [] at h
    have hR : RepInv c (({ s with size := 1, capacity := c.inline_capacity, on_heap := false } :
        impl).store ⟨false, 0⟩ [b]) := by
      have := hc.2.1
      simp only [RepInv, Bounds, Mode, store_size, store_capacity, store_on_heap,
        Config.inline_capacity]
      exact ⟨⟨by omega, by omega⟩, by simp⟩
    have hO : Owns c sp.live (({ s with size := 1, capacity := c.inline_capacity, on_heap := false } :
        impl).store ⟨false, 0⟩ [b]) sp := by
      left
      simp [in_sbo]
    obtain ⟨k1, k2⟩ := loop_owns c hc sp.live tmp rest _ sp ((⟨false, 0⟩ : Ptr).plus 1) hR hO
    cases hl : (construct_input_loop c tmp
        (({ s with size := 1, capacity := c.inline_capacity, on_heap := false } :
        impl).store ⟨false, 0⟩ [b]) sp
        ((⟨false, 0⟩ : Ptr).plus 1) rest).ret with
    | ok d =>
      rw [hl] at h
      simp only [Option.some.injEq] at h
      rw [← h] at he
      simp at he
    | error e1 =>
      rw [hl] at h
      simp only [Option.some.injEq] at h
      rw [← h]
      exact owns_destroy c hc sp.live _ _ k2 k1

theorem no_leak_on_failure_witness :
    (cfg8.ok ∧ 1 < cfg8.buf_size ∧
      (failed_run.get (by decide)).ret = .error .bad_alloc ∧
      mem_fail_second.calls + 1 < (failed_run.get (by decide)).sp.calls) ∧
    (failed_run.get (by decide)).sp.live = mem_fail_second.live :=
  ⟨by decide,
   no_leak_on_failure cfg8 (by decide) (by decide) (fun _ => junk_impl) junk_impl
     (List.range 50) mem_fail_second (failed_run.get (by decide)) .bad_alloc
     (Option.some_get _).symm (by decide)⟩

/-! ## The growth formula -/

/-- The value of `req | mask_` for a mask `2 ^ k - 1`: one less than the next multiple of
`2 ^ k` strictly above `req`. -/
theorem lor_mask (req k : Nat) : req ||| (2 ^ k - 1) = req / 2 ^ k * 2 ^ k + (2 ^ k - 1) := by
  have hp : 0 < 2 ^ k := Nat.two_pow_pos k
  have hm : 2 ^ k - 1 < 2 ^ k := by omega
  have hr : req % 2 ^ k < 2 ^ k := Nat.mod_lt _ hp
  have h1 : req % 2 ^ k ||| (2 ^ k - 1) = 2 ^ k - 1 := by
    have a := Nat.or_lt_two_pow hr hm
    have b := le_lor (2 ^ k - 1) (req % 2 ^ k)
    rw [Nat.or_comm] at b
    omega
  have h2 : req = 2 ^ k * (req / 2 ^ k) + req % 2 ^ k := (Nat.div_add_mod req (2 ^ k)).symm
  conv_lhs => rw [h2]
  rw [Nat.mul_add_lt_is_or hr, Nat.or_assoc, h1, ← Nat.mul_add_lt_is_or hm, Nat.mul_comm]

/-- C16, as amended (growth formula): with `mask_ = 2 ^ k - 1`, for every
`req <= max_size_` and `cap <= max_size_`, let `R = req / 2 ^ k * 2 ^ k + (2 ^ k - 1)`, the
value of `req | mask_`, one less than the next multiple of the block size strictly above
`req`.  Then `growth(req, cap)` returns `max_size_` if `R > max_size_` or if
`cap > max_size_ - cap / 2`, and otherwise the larger of `R` and `cap + cap / 2`; whenever
the rounded request dominates and nothing saturates, the returned capacity plus one, the
byte count of the allocation, is a multiple of the block size. -/
theorem growth_formula (c : Config) (k : Nat) (hk : c.mask_ = 2 ^ k - 1)
    (hm : c.max_size_ < 2 ^ c.bits) (req cap : Nat) (hr : req ≤ c.max_size_)
    (hcap : cap ≤ c.max_size_) :
    growth c req cap = .ok
        (if req / 2 ^ k * 2 ^ k + (2 ^ k - 1) > c.max_size_ then c.max_size_
         else if cap > c.max_size_ - cap / 2 then c.max_size_
         else max (req / 2 ^ k * 2 ^ k + (2 ^ k - 1)) (cap + cap / 2)) ∧
      (req / 2 ^ k * 2 ^ k + (2 ^ k - 1) ≤ c.max_size_ → ¬ cap > c.max_size_ - cap / 2 →
        cap + cap / 2 ≤ req / 2 ^ k * 2 ^ k + (2 ^ k - 1) →
        ∃ g, growth c req cap = .ok g ∧ (g + 1) % (c.mask_ + 1) = 0) := by
  have hs : c.sub c.max_size_ (cap / 2) = c.max_size_ - cap / 2 :=
    c.sub_eq (by omega) hm
  have hp : 0 < 2 ^ k := Nat.two_pow_pos k
  have hg : growth c req cap = .ok
      (if req / 2 ^ k * 2 ^ k + (2 ^ k - 1) > c.max_size_ then c.max_size_
       else if cap > c.max_size_ - cap / 2 then c.max_size_
       else max (req / 2 ^ k * 2 ^ k + (2 ^ k - 1)) (cap + cap / 2)) := by
    unfold growth
    rw [if_neg (by omega), hk, lor_mask, hs]
    simp only []
    by_cases h1 : req / 2 ^ k * 2 ^ k + (2 ^ k - 1) > c.max_size_
    · rw [if_pos h1, if_pos h1]
    · rw [if_neg h1, if_neg h1]
      by_cases h2 : cap > c.max_size_ - cap / 2
      · rw [if_pos h2, if_pos h2]
      · rw [if_neg h2, if_neg h2, c.add_eq (by omega)]
  refine ⟨hg, ?_⟩
  intro h1 h2 h3
  refine ⟨_, hg, ?_⟩
  rw [if_neg (by omega), if_neg h2, max_eq_left h3, hk]
  have e1 : req / 2 ^ k * 2 ^ k + (2 ^ k - 1) + 1 = (req / 2 ^ k + 1) * 2 ^ k := by
    rw [Nat.add_mul]; omega
  have e2 : 2 ^ k - 1 + 1 = 2 ^ k := by omega
  rw [e1, e2]
  exact Nat.mul_mod_left _ _

theorem growth_formula_witness :
    (cfg8.mask_ = 2 ^ 4 - 1 ∧ cfg8.max_size_ < 2 ^ cfg8.bits ∧ (17 : Nat) ≤ cfg8.max_size_ ∧
      (0 : Nat) ≤ cfg8.max_size_) ∧
    growth cfg8 17 0 = .ok 31 ∧ (31 + 1) % (cfg8.mask_ + 1) = 0 :=
  ⟨by decide,
   (growth_formula cfg8 4 (by decide) (by decide) 17 0 (by decide) (by decide)).1.trans
     (by decide),
   by decide⟩

/-- C16 as stated fails: for `req = 17` and `cap = 0`, with block size 16 and nothing
saturating, the request rounded up to the next multiple of the block size is 32, the
formula gives 32, and `growth` returns 31, which is not a multiple of the block size. -/
theorem growth_rounding_fails :
    (17 : Nat) ≤ cfg8.max_size_ ∧ round_up cfg8 17 = 32 ∧ growth_rounding cfg8 17 0 = 32 ∧
      growth cfg8 17 0 = .ok 31 ∧ growth cfg8 17 0 ≠ .ok (growth_rounding cfg8 17 0) ∧
      31 % (cfg8.mask_ + 1) ≠ 0 ∧
      growth cfg8 16 0 = .ok 31 ∧ growth_rounding cfg8 16 0 = 16 := by
  decide

/-! ## The capacity chosen by a reallocation -/

/-- The reallocating branch of `append`, when it succeeds. -/
theorem append_slow (c : Config) (hc : c.ok) (tmp s : impl) (hB : Bounds c s) (n : Nat)
    (sp : storage) (d : Ptr) (hslow : ¬ n ≤ s.capacity - s.size)
    (h : (append c tmp s n sp).ret = .ok d) :
    ∃ g, growth c (s.size + n) s.capacity = .ok g ∧
      (∃ d1, (construct_size c tmp g sp).ret = .ok d1) ∧
      (append c tmp s n sp).self.capacity = (construct_size c tmp g sp).self.capacity ∧
      (append c tmp s n sp).self.on_heap = (construct_size c tmp g sp).self.on_heap ∧
      (append c tmp s n sp).self.p.addr = (construct_size c tmp g sp).self.p.addr ∧
      (append c tmp s n sp).self.p.bytes.length
        = (construct_size c tmp g sp).self.p.bytes.length ∧
      (append c tmp s n sp).sp = destroy c s (construct_size c tmp g sp).sp := by
  obtain ⟨hn, -⟩ := append_ok_imp c hc tmp s hB n sp d h
  obtain ⟨hsz, hcap⟩ := hB
  have h2 := hc.2.2
  have hs1 : c.sub c.max_size_ s.size = c.max_size_ - s.size :=
    c.sub_eq (by omega) (by omega)
  have hs2 : c.sub s.capacity s.size = s.capacity - s.size :=
    c.sub_eq hsz (by omega)
  have ha : c.add s.size n = s.size + n := c.add_eq (by omega)
  obtain ⟨g, hg, -, -⟩ := growth_ok c (s.size + n) s.capacity (by omega) hcap
  refine ⟨g, hg, ?_⟩
  unfold append at h ⊢
  rw [hs1, hs2, ha, if_neg (by omega), if_neg hslow, hg] at h ⊢
  simp only [] at h ⊢
  cases hr : (construct_size c tmp g sp).ret with
  | error e => rw [hr] at h; simp at h
  | ok d1 =>
    simp [term_capacity, term_on_heap, term_addr, term]

/-- The reallocating branch of `insert`, when it succeeds. -/
theorem insert_slow (c : Config) (hc : c.ok) (tmp s : impl) (hB : Bounds c s) (pos n : Nat)
    (sp : storage) (d : Ptr) (hslow : ¬ n ≤ s.capacity - s.size)
    (h : (insert c tmp s pos n sp).ret = .ok d) :
    ∃ g, growth c (s.size + n) s.capacity = .ok g ∧
      (∃ d1, (construct_size c tmp g sp).ret = .ok d1) ∧
      (insert c tmp s pos n sp).self.capacity = (construct_size c tmp g sp).self.capacity ∧
      (insert c tmp s pos n sp).sp = destroy c s (construct_size c tmp g sp).sp := by
  obtain ⟨hpos, hn, -⟩ := insert_ok_imp c hc tmp s hB pos n sp d h
  obtain ⟨hsz, hcap⟩ := hB
  have h2 := hc.2.2
  have hs1 : c.sub c.max_size_ s.size = c.max_size_ - s.size :=
    c.sub_eq (by omega) (by omega)
  have hs2 : c.sub s.capacity s.size = s.capacity - s.size :=
    c.sub_eq hsz (by omega)
  have ha : c.add s.size n = s.size + n := c.add_eq (by omega)
  obtain ⟨g, hg, -, -⟩ := growth_ok c (s.size + n) s.capacity (by omega) hcap
  refine ⟨g, hg, ?_⟩
  unfold insert at h ⊢
  rw [if_neg (by omega), hs2, hs1, if_neg hslow, if_neg (by omega), ha, hg] at h ⊢
  simp only [] at h ⊢
  cases hr : (construct_size c tmp g sp).ret with
  | error e => rw [hr] at h; simp at h
  | ok d1 =>
    simp

/-- The reallocating branch of `assign`, when it succeeds. -/
theorem assign_slow (c : Config) (hc : c.ok) (tmp s : impl) (hB : Bounds c s) (n : Nat)
    (sp : storage) (d : Ptr) (hslow : s.capacity < n)
    (h : (assign c tmp s n sp).ret = .ok d) :
    ∃ g, growth c n s.capacity = .ok g ∧
      (∃ d1, (construct_size c tmp g sp).ret = .ok d1) ∧
      (assign c tmp s n sp).self.capacity = (construct_size c tmp g sp).self.capacity ∧
      (assign c tmp s n sp).sp = destroy c s (construct_size c tmp g sp).sp := by
  obtain ⟨hn, -⟩ := assign_ok_imp c hc tmp s hB n sp d h
  obtain ⟨g, hg, -, -⟩ := growth_ok c n s.capacity hn hB.2
  refine ⟨g, hg, ?_⟩
  unfold assign at h ⊢
  rw [if_pos hslow, hg] at h ⊢
  simp only [] at h ⊢
  cases hr : (construct_size c tmp g sp).ret with
  | error e => rw [hr] at h; simp at h
  | ok d1 =>
    simp [term_capacity]

/-- The allocating branch of `construct(new_size, sp)`. -/
theorem construct_size_alloc (c : Config) (hc : c.ok) (t : impl) (g : Nat) (sp : storage)
    (hge : c.buf_size ≤ g) (d : Ptr) (h : (construct_size c t g sp).ret = .ok d) :
    ∃ g1, growth c g c.inline_capacity = .ok g1 ∧ g ≤ g1 ∧ g1 ≤ c.max_size_ ∧
      (construct_size c t g sp).self.capacity = g1 ∧
      (construct_size c t g sp).self.on_heap = true ∧
      (construct_size c t g sp).self.p.bytes.length = g1 + 1 ∧
      (construct_size c t g sp).sp.live
        = ((construct_size c t g sp).self.p.addr, g1 + 1) :: sp.live ∧
      (construct_size c t g sp).sp.calls = sp.calls + 1 := by
  obtain ⟨hg, hf⟩ := construct_size_ok_imp c hc t g sp d h
  obtain ⟨h0, h1, h2⟩ := hc
  have hf1 : sp.fail sp.calls = false := hf.resolve_left (by omega)
  obtain ⟨g1, hg1, hle, hmax⟩ := growth_ok c g c.inline_capacity hg (by
    unfold Config.inline_capacity; omega)
  have hadd : c.add g1 1 = g1 + 1 := c.add_eq (by omega)
  refine ⟨g1, hg1, hle, hmax, ?_⟩
  unfold construct_size
  simp [if_neg (show ¬ g < c.buf_size by omega), hg1, storage.allocate, hf1, hadd]

theorem append_succeeds (c : Config) (hc : c.ok) (tmp s : impl) (hB : Bounds c s) (n : Nat)
    (hn : n ≤ c.max_size_ - s.size) (sp : storage) (hf : sp.fail sp.calls = false) :
    ∃ d, (append c tmp s n sp).ret = .ok d := by
  obtain ⟨hsz, hcap⟩ := hB
  have h2 := hc.2.2
  have hs1 : c.sub c.max_size_ s.size = c.max_size_ - s.size :=
    c.sub_eq (by omega) (by omega)
  have ha : c.add s.size n = s.size + n := c.add_eq (by omega)
  obtain ⟨g, hg, -, hmax⟩ := growth_ok c (s.size + n) s.capacity (by omega) hcap
  obtain ⟨d1, hd1⟩ := construct_size_succeeds c tmp g sp hmax hf
  unfold append
  rw [hs1, ha, if_neg (by omega), hg]
  split_ifs
  · exact ⟨_, rfl⟩
  · simp only [hd1]
    exact ⟨_, rfl⟩

/-- C17, as amended (capacity chosen by a reallocating append): on a buffer satisfying the
data-model invariants with `capacity >= INLINE_CAPACITY`, for every `n` with
`capacity - size < n <= max_size_ - size`, the allocation succeeding, `impl::append(n)`
passes `g = growth(size + n, capacity)` to `construct(new_size, sp)`, which applies the
growth policy a second time: the new capacity is `growth(g, INLINE_CAPACITY)`, which is at
least `g`, the storage is on the heap, and the one block allocated has that capacity plus
one bytes. -/
theorem append_capacity (c : Config) (hc : c.ok) (tmp s : impl) (hI : Inv c s)
    (hic : c.inline_capacity ≤ s.capacity) (n : Nat) (h1 : s.capacity - s.size < n)
    (h2 : n ≤ c.max_size_ - s.size) (sp : storage) (hf : sp.fail sp.calls = false) :
    ∃ g g1, growth c (s.size + n) s.capacity = .ok g ∧
      growth c g c.inline_capacity = .ok g1 ∧ g ≤ g1 ∧
      (append c tmp s n sp).self.capacity = g1 ∧
      (append c tmp s n sp).self.on_heap = true ∧
      (append c tmp s n sp).self.p.bytes.length = g1 + 1 ∧
      (construct_size c tmp g sp).sp.live
        = ((append c tmp s n sp).self.p.addr, g1 + 1) :: sp.live ∧
      (construct_size c tmp g sp).sp.calls = sp.calls + 1 ∧
      (append c tmp s n sp).sp = destroy c s (construct_size c tmp g sp).sp := by
  obtain ⟨⟨hBd, -⟩, -, -⟩ := hI
  obtain ⟨d, hd⟩ := append_succeeds c hc tmp s hBd n h2 sp hf
  obtain ⟨g, hg, ⟨d1, hd1⟩, k1, k2, k3, k4, k5⟩ :=
    append_slow c hc tmp s hBd n sp d (by omega) hd
  obtain ⟨g0, hg0, hle0, -⟩ := growth_ok c (s.size + n) s.capacity
    (by have := hBd.1; omega) hBd.2
  have hgg : g0 = g := by rw [hg0] at hg; exact Except.ok.inj hg
  subst hgg
  have hge : c.buf_size ≤ g0 := by
    have := hc.1; unfold Config.inline_capacity at hic; omega
  obtain ⟨g1, hg1, hle, -, a1, a2, a3, a4, a5⟩ :=
    construct_size_alloc c hc tmp g0 sp hge d1 hd1
  refine ⟨g0, g1, hg, hg1, hle, ?_, ?_, ?_, ?_, a5, k5⟩
  · rw [k1, a1]
  · rw [k2, a2]
  · rw [k4, a3]
  · rw [k3, a4]

theorem append_capacity_witness :
    (cfg8.ok ∧ Inv cfg8 full100 ∧ cfg8.inline_capacity ≤ full100.capacity ∧
      full100.capacity - full100.size < 1 ∧ 1 ≤ cfg8.max_size_ - full100.size ∧
      mem_ok.fail mem_ok.calls = false) ∧
    ∃ g g1, growth cfg8 (full100.size + 1) full100.capacity = .ok g ∧
      growth cfg8 g cfg8.inline_capacity = .ok g1 ∧ g ≤ g1 ∧
      (append cfg8 junk_impl full100 1 mem_ok).self.capacity = g1 ∧
      (append cfg8 junk_impl full100 1 mem_ok).self.on_heap = true ∧
      (append cfg8 junk_impl full100 1 mem_ok).self.p.bytes.length = g1 + 1 ∧
      (construct_size cfg8 junk_impl g mem_ok).sp.live
        = ((append cfg8 junk_impl full100 1 mem_ok).self.p.addr, g1 + 1) :: mem_ok.live ∧
      (construct_size cfg8 junk_impl g mem_ok).sp.calls = mem_ok.calls + 1 ∧
      (append cfg8 junk_impl full100 1 mem_ok).sp
        = destroy cfg8 full100 (construct_size cfg8 junk_impl g mem_ok).sp :=
  ⟨by decide,
   append_capacity cfg8 (by decide) junk_impl full100 (by decide) (by decide) 1 (by decide)
     (by decide) mem_ok (by decide)⟩

/-- C17 as stated fails: on the full heap string `full100` (`size = capacity = 100`),
`append(1)` computes `growth(101, 100) = 150`, and the capacity after the call is 159,
the value of `growth(150, INLINE_CAPACITY)`, in a block of 160 bytes. -/
theorem append_capacity_differs :
    cfg8.ok ∧ Inv cfg8 full100 ∧ full100.capacity - full100.size < 1 ∧
      1 ≤ cfg8.max_size_ - full100.size ∧ mem_ok.fail mem_ok.calls = false ∧
      growth cfg8 (full100.size + 1) full100.capacity = .ok 150 ∧
      (append cfg8 junk_impl full100 1 mem_ok).ret = .ok ⟨true, 100⟩ ∧
      (append cfg8 junk_impl full100 1 mem_ok).self.capacity = 159 ∧
      (append cfg8 junk_impl full100 1 mem_ok).self.p.bytes.length = 160 := by
  decide

/-! ## Geometric growth -/

theorem growth_geometric (c : Config) (hm : c.max_size_ < 2 ^ c.bits) (req cap g : Nat)
    (hcap : cap ≤ c.max_size_) (h : growth c req cap = .ok g) :
    min c.max_size_ (cap + cap / 2) ≤ g := by
  have hs : c.sub c.max_size_ (cap / 2) = c.max_size_ - cap / 2 :=
    c.sub_eq (by omega) hm
  unfold growth at h
  rw [hs] at h
  simp only [] at h
  split_ifs at h with h1 h2 h3
  · simp only [Except.ok.injEq] at h; omega
  · simp only [Except.ok.injEq] at h; omega
  · simp only [Except.ok.injEq] at h
    rw [c.add_eq (by omega)] at h
    have := le_max_right (req ||| c.mask_) (cap + cap / 2)
    omega

/-- C18 (geometric growth on every reallocation): on a buffer satisfying the
representation invariant, whenever `impl::assign`, `impl::append` or `impl::insert` takes
its reallocating branch and succeeds, the new capacity `c'` satisfies
`c' >= min(max_size_, c + c / 2)` and `c' > c`, where `c` is the old capacity. -/
theorem geometric_growth (c : Config) (hc : c.ok) (tmp s : impl) (hR : RepInv c s) :
    (∀ n sp d, s.capacity < n → (assign c tmp s n sp).ret = .ok d →
      min c.max_size_ (s.capacity + s.capacity / 2) ≤ (assign c tmp s n sp).self.capacity ∧
        s.capacity < (assign c tmp s n sp).self.capacity) ∧
    (∀ n sp d, ¬ n ≤ s.capacity - s.size → (append c tmp s n sp).ret = .ok d →
      min c.max_size_ (s.capacity + s.capacity / 2) ≤ (append c tmp s n sp).self.capacity ∧
        s.capacity < (append c tmp s n sp).self.capacity) ∧
    (∀ pos n sp d, ¬ n ≤ s.capacity - s.size → (insert c tmp s pos n sp).ret = .ok d →
      min c.max_size_ (s.capacity + s.capacity / 2)
          ≤ (insert c tmp s pos n sp).self.capacity ∧
        s.capacity < (insert c tmp s pos n sp).self.capacity) := by
  have hm : c.max_size_ < 2 ^ c.bits := by have := hc.2.2; omega
  refine ⟨?_, ?_, ?_⟩
  · intro n sp d hslow h
    obtain ⟨g, hg, ⟨d1, hd1⟩, k1, -⟩ := assign_slow c hc tmp s hR.1 n sp d hslow h
    have k2 := (construct_size_light c hc tmp g sp d1 hd1).1
    have k3 := growth_geometric c hm n s.capacity g hR.1.2 hg
    exact ⟨by rw [k1]; omega, (assign_rep c hc tmp s hR n sp d h).2 hslow⟩
  · intro n sp d hslow h
    obtain ⟨g, hg, ⟨d1, hd1⟩, k1, -⟩ := append_slow c hc tmp s hR.1 n sp d hslow h
    have k2 := (construct_size_light c hc tmp g sp d1 hd1).1
    have k3 := growth_geometric c hm (s.size + n) s.capacity g hR.1.2 hg
    exact ⟨by rw [k1]; omega, (append_rep c hc tmp s hR n sp d h).2 hslow⟩
  · intro pos n sp d hslow h
    obtain ⟨g, hg, ⟨d1, hd1⟩, k1, -⟩ := insert_slow c hc tmp s hR.1 pos n sp d hslow h
    have k2 := (construct_size_light c hc tmp g sp d1 hd1).1
    have k3 := growth_geometric c hm (s.size + n) s.capacity g hR.1.2 hg
    exact ⟨by rw [k1]; omega, (insert_rep c hc tmp s hR pos n sp d h).2 hslow⟩

theorem geometric_growth_witness :
    (cfg8.ok ∧ RepInv cfg8 full100 ∧ ¬ (1 ≤ full100.capacity - full100.size) ∧
      (append cfg8 junk_impl full100 1 mem_ok).ret = .ok ⟨true, 100⟩ ∧
      full100.capacity < 120 ∧
      (assign cfg8 junk_impl full100 120 mem_ok).ret = .ok ⟨true, 0⟩) ∧
    (min cfg8.max_size_ (full100.capacity + full100.capacity / 2)
        ≤ (append cfg8 junk_impl full100 1 mem_ok).self.capacity ∧
      full100.capacity < (append cfg8 junk_impl full100 1 mem_ok).self.capacity) ∧
    (min cfg8.max_size_ (full100.capacity + full100.capacity / 2)
        ≤ (assign cfg8 junk_impl full100 120 mem_ok).self.capacity ∧
      full100.capacity < (assign cfg8 junk_impl full100 120 mem_ok).self.capacity) :=
  ⟨by decide,
   (geometric_growth cfg8 (by decide) junk_impl full100 (by decide)).2.1 1 mem_ok
     ⟨true, 100⟩ (by decide) (by decide),
   (geometric_growth cfg8 (by decide) junk_impl full100 (by decide)).1 120 mem_ok
     ⟨true, 0⟩ (by decide) (by decide)⟩

/-! ## The overflow test of `growth` -/

/-- C19, as amended (the geometric-overflow check is exact): with `max_size_ < 2 ^ bits`,
`growth` is the cascade of its three tests, the third one being
`capacity > max_size_ - capacity / 2`; for every `capacity <= max_size_` that test never
misses an overflow and never fires without one: it holds if and only if
`capacity + capacity / 2 > max_size_`. -/
theorem overflow_test_exact (c : Config) (hm : c.max_size_ < 2 ^ c.bits) (cap : Nat)
    (hcap : cap ≤ c.max_size_) :
    (overflow_test c cap ↔ c.max_size_ < cap + cap / 2) ∧
      ∀ req, growth c req cap =
        if req > c.max_size_ then .error .length_error
        else if req ||| c.mask_ > c.max_size_ then .ok c.max_size_
        else if overflow_test c cap then .ok c.max_size_
        else .ok (max (req ||| c.mask_) (c.add cap (cap / 2))) := by
  have hs : c.sub c.max_size_ (cap / 2) = c.max_size_ - cap / 2 :=
    c.sub_eq (by omega) hm
  constructor
  · unfold overflow_test
    rw [hs]
    omega
  · intro req
    rfl

theorem overflow_test_exact_witness :
    (cfg8.max_size_ < 2 ^ cfg8.bits ∧ (134 : Nat) ≤ cfg8.max_size_ ∧
      cfg8.max_size_ < 134 + 134 / 2 ∧ ¬ cfg8.max_size_ < 133 + 133 / 2) ∧
    overflow_test cfg8 134 ∧ ¬ overflow_test cfg8 133 :=
  ⟨by decide,
   (overflow_test_exact cfg8 (by decide) 134 (by decide)).1.mpr (by decide),
   fun h => absurd ((overflow_test_exact cfg8 (by decide) 133 (by decide)).1.mp h)
     (by decide)⟩

/-- C19 as stated fails: there is no `max_size_` (a `size_type` value) and no
`capacity <= max_size_` for which the test fires although
`capacity + capacity / 2 <= max_size_`. -/
theorem overflow_test_never_spurious :
    ¬ ∃ (c : Config) (cap : Nat), c.max_size_ < 2 ^ c.bits ∧ cap ≤ c.max_size_ ∧
      overflow_test c cap ∧ cap + cap / 2 ≤ c.max_size_ := by
  rintro ⟨c, cap, hm, hcap, ht, hle⟩
  have hs : c.sub c.max_size_ (cap / 2) = c.max_size_ - cap / 2 :=
    c.sub_eq (by omega) hm
  unfold overflow_test at ht
  rw [hs] at ht
  omega

/-! ## The empty single-pass sequence -/

/-- C20 (empty single-pass source), evaluated on the code: the single-pass
`impl::construct` reads its first element before any test `first != last`, so on the
empty sequence it has no defined result, for every configuration, object and memory
resource; the sibling path `string::assign(first, last, input_iterator_tag)` tests
`first == last` and yields the empty string there. -/
theorem empty_single_pass_undefined (c : Config) (tmps : Nat → impl) (tmp s : impl)
    (sp : storage) :
    construct_input c tmps s [] sp = none ∧
      assign_input c tmps tmp s [] sp = some ⟨term c s 0, sp, .ok ()⟩ ∧
      (term c s 0).size = 0 :=
  ⟨rfl, rfl, term_size c s 0⟩

end BoostJson
